import Mathlib

/-
Verification of the chartutil value-coalescence and chart-loading core.

The Go source represents a values tree as map[string]interface{} with
interface{} leaves; nil is the YAML null. We embed it as the inductive
type Val below, with tables as association lists kept in insertion
order. Go map iteration order is unspecified, but every map-producing
function in the source writes each key independently of iteration
order, so a deterministic insertion-order model is faithful; map
equality in Go (reflect.DeepEqual) is key-set based, which is the
tablesEqv relation defined later. Go maps never hold a duplicate key;
lemmas that depend on that carry an explicit no-duplicate-keys
hypothesis.
-/

set_option maxHeartbeats 1600000

namespace Helm

/-- A YAML value: null, a scalar (number, string, boolean), a sequence
(opaque to all merging code, which only distinguishes nil and
map[string]interface{}), or a table. -/
inductive Val : Type where
  | vnull : Val
  | num (n : Int) : Val
  | str (s : String) : Val
  | bool (b : Bool) : Val
  | seq (elems : List Val) : Val
  | table (entries : List (String × Val)) : Val

/-- Values represents a collection of chart values (the Go type Values =
map[string]interface{}), embedded as an association list. -/
abbrev VTable := List (String × Val)

/-- Go map read m[key]: the first binding of key, if any. -/
def lookupV : VTable → String → Option Val
  | [], _ => none
  | (k, v) :: rest, key => if k = key then some v else lookupV rest key

/-- Go map write m[key] = v: replace the binding in place, or append. -/
def setV : VTable → String → Val → VTable
  | [], key, v => [(key, v)]
  | (k, w) :: rest, key, v =>
    if k = key then (k, v) :: rest else (k, w) :: setV rest key v

/-- Whether the value is the YAML null (Go interface nil). -/
def Val.isNull : Val → Bool
  | vnull => true
  | _ => false

/-- istable from the source: a type assertion to map[string]interface{}. -/
def istable : Val → Bool
  | Val.table _ => true
  | _ => false

/-- GlobalKey is the name of the Values key used for storing global vars. -/
def GlobalKey : String := "global"

/-- AsMap from the source: protects against nil map panics by returning
an empty map for nil or empty values. -/
def AsMap (v : VTable) : VTable :=
  if v.isEmpty then [] else v

/-- The second loop of coalesceTables: copy across every dst entry whose
key was not already produced and whose value is not null. -/
def copyAcross (rv : VTable) : VTable → VTable
  | [] => rv
  | (key, dval) :: rest =>
    if dval.isNull then copyAcross rv rest
    else
      match lookupV rv key with
      | some _ => copyAcross rv rest
      | none => copyAcross (rv ++ [(key, dval)]) rest

mutual

/-- coalesceTables from the source: merges the source map into the
destination map with dest authoritative. First pass walks src
(srcPass), second pass copies the remaining non-null dst entries
across (copyAcross). -/
def coalesceTables (dst src : VTable) : VTable :=
  copyAcross (srcPass dst src) dst
termination_by (sizeOf src, 1)

/-- The first loop of coalesceTables: for each key of src, copy it when
dst lacks the key, drop it when dst binds the key to null, recurse when
both sides are tables, and otherwise keep the dst value (the three
non-recursive switch cases of the source all yield dv). -/
def srcPass (dst : VTable) (src : VTable) : VTable :=
  match src with
  | [] => []
  | (key, sval) :: rest =>
    match lookupV dst key with
    | none => (key, sval) :: srcPass dst rest
    | some dv =>
      if dv.isNull then srcPass dst rest
      else
        match sval, dv with
        | Val.table st, Val.table dt =>
          (key, Val.table (coalesceTables dt st)) :: srcPass dst rest
        | _, _ => (key, dv) :: srcPass dst rest
termination_by (sizeOf src, 0)
decreasing_by
  all_goals simp_wf
  all_goals first
    | exact Prod.Lex.right _ (by omega)
    | exact Prod.Lex.left _ _ (by omega)

end

/-
MergeValues from the source: merges src into dest preferring src.
The recursion branch is guarded by Go type assertions to the defined
type Values (v.(Values) and dest[k].(Values)), which succeed only when
the dynamic type of the value is exactly chartutil.Values, not for a
plain map[string]interface{}. The embedding cannot read a dynamic type
off a value, so the assertion outcome is the parameter asV; a
successful assertion implies the value is a map, hence the table-shape
requirement in the patterns. At the only call site
(LoadFilesWithEnvValues) both arguments come from yaml.Unmarshal, whose
nested maps are plain map[string]interface{} (encoding/json semantics)
and never Values, so there asV is constantly false; the repository's
own TestMergeValues likewise expects nested maps that are not Values to
be overwritten, not merged.
-/

mutual

/-- MergeValues from the source: the loop over src entries. -/
def MergeValues (asV : Val → Bool) (dest : VTable) (src : VTable) : VTable :=
  match src with
  | [] => dest
  | (k, v) :: rest => MergeValues asV (mergeKey asV dest k v) rest
termination_by (sizeOf src, 0)

/-- The body of the MergeValues loop for one src entry: absent key or
failed assertion overwrite, two Values-typed maps recurse. -/
def mergeKey (asV : Val → Bool) (dest : VTable) (k : String) (v : Val) : VTable :=
  match lookupV dest k with
  | none => setV dest k v
  | some dv =>
    match v with
    | Val.table nextMap =>
      if asV v then
        (match dv with
         | Val.table destMap =>
           if asV dv then setV dest k (Val.table (MergeValues asV destMap nextMap))
           else setV dest k v
         | _ => setV dest k v)
      else setV dest k v
    | _ => setV dest k v
termination_by (sizeOf v, 1)
decreasing_by
  all_goals simp_wf
  all_goals first
    | exact Prod.Lex.left _ _ (by omega)
    | exact Prod.Lex.right _ (by omega)

end

/-- The dynamic-type outcome of v.(Values) for YAML-decoded data: the
decoder produces plain map[string]interface{} for every nested map, so
the assertion always fails. -/
def asValuesYaml : Val → Bool := fun _ => false

/-- The values/environment slice of the classification loop of
LoadFilesWithEnvValues: the two accumulators filled from a values.yaml
entry and from the caller-named environment values entry. The other
branches of the loop (Chart.yaml, values.toml, templates, subcharts,
misc files) do not touch these two variables; values.toml aborts the
load before any merge and is outside this slice. The source unmarshals
into the same variable; a chart holds at most one file per name, so the
accumulator is modelled as replaced. -/
def loadValuesPass (files : List (String × VTable)) (envValuesFile : String) :
    VTable × VTable :=
  files.foldl
    (fun acc f =>
      if f.1 = "values.yaml" then (f.2, acc.2)
      else if f.1 = envValuesFile then (acc.1, f.2)
      else acc)
    ([], [])

/-- The default-values assembly of LoadFilesWithEnvValues: merge the
environment overlay into the values (YAML dynamic types, so asValuesYaml)
and set the chart default values only if the merged map is non-empty. -/
def loadDefaultValues (files : List (String × VTable)) (envValuesFile : String) :
    Option VTable :=
  let vp := loadValuesPass files envValuesFile
  let merged := MergeValues asValuesYaml vp.1 vp.2
  if merged.length ≠ 0 then some merged else none

/-
The chart model. The source chart (pkg/proto/hapi/chart) carries
Metadata.Name, Values (a Config whose Raw field is YAML text), and
Dependencies. Parsing of Raw is external (ghodss/yaml), so values here
is the decode outcome of Raw: none models a nil Config or an empty Raw
(the guard at the top of coalesceValues), some (Except.error e) a Raw
that does not parse, and some (Except.ok t) a Raw that parses to t.
-/

/-- A chart: name, decoded default values and dependencies. -/
inductive Chart : Type where
  | mk (name : String) (values : Option (Except String VTable)) (deps : List Chart)

/-- The chart name (Metadata.Name in the source). -/
def Chart.name : Chart → String
  | .mk n _ _ => n

/-- The decode outcome of the default values (Values.Raw in the source). -/
def Chart.values : Chart → Option (Except String VTable)
  | .mk _ v _ => v

/-- The chart dependencies. -/
def Chart.deps : Chart → List Chart
  | .mk _ _ d => d

/-- coalesceValues from the source: builds up the values map for one
chart. If the chart has no values (nil Config or empty Raw) the given
values pass through; a parse failure returns the error; otherwise the
chart defaults are merged underneath v via coalesceTables. -/
def coalesceValues (c : Chart) (v : VTable) : Except String VTable :=
  match c.values with
  | none => .ok v
  | some (.error _) =>
    .error ("error reading chart " ++ c.name ++ " default values")
  | some (.ok nv) => .ok (coalesceTables v (AsMap nv))

/-- coalesceGlobals from the source: copies dest and replaces its global
entry with the top-down merge of the global entries of src (the parent,
authoritative) and dest (the child). A non-table global entry on either
side makes the function bail out early: a non-table dest global returns
the still-nil dg, and a non-table src global returns dg itself. The
chartName parameter of the source is used only for warning logs and is
dropped here. -/
def coalesceGlobals (dest src : VTable) : VTable :=
  match lookupV dest GlobalKey with
  | some (Val.table dg) =>
    (match lookupV src GlobalKey with
     | some (Val.table sg) => setV dest GlobalKey (Val.table (coalesceTables sg dg))
     | some _ => dg
     | none => setV dest GlobalKey (Val.table (coalesceTables [] dg)))
  | some _ => []
  | none =>
    (match lookupV src GlobalKey with
     | some (Val.table sg) => setV dest GlobalKey (Val.table (coalesceTables sg []))
     | some _ => []
     | none => setV dest GlobalKey (Val.table (coalesceTables [] [])))

mutual

/-- coalesce from the source: coalesces the dest values and the chart
values giving priority to dest, then coalesces the dependencies. -/
def coalesce (ch : Chart) (dest : VTable) : Except String VTable :=
  match coalesceValues ch dest with
  | .error e => .error e
  | .ok dest2 => coalesceDepsList ch.deps dest2
termination_by (sizeOf ch, 1)
decreasing_by
  all_goals simp_wf
  all_goals refine Prod.Lex.left _ _ ?_
  all_goals cases ch
  all_goals simp only [Chart.deps, Chart.mk.sizeOf_spec]
  all_goals omega

/-- The dependency loop of coalesceDeps from the source: for each
subchart, create an empty table under its name if absent (a non-table
existing entry is a type mismatch error), inject the globals of dest
into that table, recursively coalesce the subchart into it, and store
the result back under the subchart name. -/
def coalesceDepsList (subs : List Chart) (dest : VTable) : Except String VTable :=
  match subs with
  | [] => .ok dest
  | sub :: rest =>
    match lookupV dest sub.name with
    | some c =>
      match c with
      | Val.table dvmap =>
        (match coalesce sub (coalesceGlobals dvmap dest) with
         | .error e => .error e
         | .ok cres => coalesceDepsList rest (setV dest sub.name (Val.table cres)))
      | _ => .error ("type mismatch on " ++ sub.name)
    | none =>
      let dest2 := setV dest sub.name (Val.table [])
      (match coalesce sub (coalesceGlobals [] dest2) with
       | .error e => .error e
       | .ok cres => coalesceDepsList rest (setV dest2 sub.name (Val.table cres)))
termination_by (sizeOf subs, 0)
decreasing_by
  all_goals simp_wf
  all_goals first
    | exact Prod.Lex.left _ _ (by omega)
    | exact Prod.Lex.right _ (by omega)

end

/-- coalesceDeps from the source: coalesces the dependencies of the
given chart into dest. -/
def coalesceDeps (chrt : Chart) (dest : VTable) : Except String VTable :=
  coalesceDepsList chrt.deps dest

/-- CoalesceValues from the source: with a non-nil config the decoded
overrides are coalesced with the chart (a decode failure is returned);
with a nil config only coalesceDeps runs, on the fresh empty cvals. -/
def CoalesceValues (chrt : Chart) (vals : Option (Except String VTable)) :
    Except String VTable :=
  match vals with
  | some (.error e) => .error e
  | some (.ok evals) => coalesce chrt evals
  | none => coalesceDeps chrt []

/-- tableLookup from the source: one step of table lookup. A missing
key or a non-table value is an ErrNoTable; a value that is a table is
returned (the source has a second type switch on the named Values type
catching the same shape). -/
def tableLookup (v : VTable) (simple : String) : Except String VTable :=
  match lookupV v simple with
  | none => Except.error ("no table named " ++ simple)
  | some v2 =>
    match v2 with
    | Val.table vv => Except.ok vv
    | _ => Except.error ("no table named " ++ simple)

/-- The loop of the Table method: fold tableLookup over the dot-split
name, stopping at the first error. -/
def TableLoopAux : VTable → List String → Except String VTable
  | t, [] => Except.ok t
  | t, n :: rest =>
    match tableLookup t n with
    | Except.error e => Except.error e
    | Except.ok t2 => TableLoopAux t2 rest

/-- Table from the source: gets a YAML subsection via a dotted name. -/
def Table (v : VTable) (name : String) : Except String VTable :=
  TableLoopAux v (name.splitOn ".")

/-- PathValue from the source: the value at the end of a dotted YAML
path. An empty path is rejected up front; a single segment is looked up
at the root and must not be a table; otherwise all but the last segment
locate a table in which the last segment must name a non-table value. -/
def PathValue (v : VTable) (ypath : String) : Except String Val :=
  if ypath.length = 0 then Except.error "YAML path string cannot be zero length"
  else
    let yps := ypath.splitOn "."
    if yps.length = 1 then
      let vals := AsMap v
      let k := yps.headI
      match lookupV vals k with
      | some x => if istable x then Except.error (k ++ " is not a value") else Except.ok x
      | none => Except.error (k ++ " is not a value")
    else
      let st := String.intercalate "." (yps.take (yps.length - 1))
      let sk := yps.getLastD ""
      match Table v st with
      | Except.error _ => Except.error (sk ++ " is not a value")
      | Except.ok t =>
        match lookupV t sk with
        | some kv =>
          if istable kv then Except.error ("key not found: " ++ sk) else Except.ok kv
        | none => Except.error ("key not found: " ++ sk)

/-- The outcome of the external yaml.Unmarshal call inside ReadValues:
the map left in the target variable (none models a Go nil map) and the
returned error, abstracting the decoder that is outside this
repository. -/
structure DecodeOutcome : Type where
  vals : Option VTable
  err : Option String

/-- len of a possibly-nil Go map. -/
def lenOpt : Option VTable → Nat
  | none => 0
  | some m => m.length

/-- ReadValues from the source: run the decoder, then replace a map
with zero entries (nil included) by a fresh non-nil empty Values. Both
the map and the decode error are returned, like the Go pair. -/
def ReadValues (d : DecodeOutcome) : Option VTable × Option String :=
  let vals := if lenOpt d.vals = 0 then some [] else d.vals
  (vals, d.err)

/-- Modelled from the spec: the external ghodss/yaml decoder, which is
not part of this repository, decodes the empty input as an empty YAML
document with no error, leaving the target map nil (the spec requires
YAML with JSON-compatible semantics for value files). -/
def yamlDecodeEmptyInput : DecodeOutcome := ⟨none, none⟩

/-
Specification vocabulary: key lists, well-formedness of tables (Go maps
never hold a duplicate key; YAML mappings hold no duplicate key either),
and dotted-path style lookups used to state the claims.
-/

/-- Whether the table binds the key. -/
def containsKey (t : VTable) (k : String) : Bool :=
  (lookupV t k).isSome

/-- The keys of a table, in order. -/
def keysOf (t : VTable) : List String :=
  t.map Prod.fst

mutual

/-- Deep well-formedness of a value as a Go/YAML map tree: every table
in it has pairwise distinct keys. -/
def valNodup : Val → Bool
  | Val.table t => tblNodup t
  | _ => true
termination_by v => sizeOf v

/-- Deep well-formedness of a table: distinct keys, recursively. -/
def tblNodup : VTable → Bool
  | [] => true
  | (k, v) :: rest => !(containsKey rest k) && valNodup v && tblNodup rest
termination_by t => sizeOf t

end

mutual

/-- A value with no duplicate keys and no null anywhere (sequences are
opaque to the coalescer and are not inspected). -/
def valGood : Val → Bool
  | Val.vnull => false
  | Val.table t => tblGood t
  | _ => true
termination_by v => sizeOf v

/-- A table with distinct keys and no null value, recursively. -/
def tblGood : VTable → Bool
  | [] => true
  | (k, v) :: rest => !(containsKey rest k) && valGood v && tblGood rest
termination_by t => sizeOf t

end

/-- Lookup along a dotted path: each intermediate key must be bound to a
table; the final key may be bound to anything. The empty path names no
value. -/
def lookupPath : VTable → List String → Option Val
  | _, [] => none
  | t, [k] => lookupV t k
  | t, k :: rest =>
    match lookupV t k with
    | some (Val.table t2) => lookupPath t2 rest
    | _ => none

/-- The per-key merge of coalesceTables when both sides bind the key to
a non-null value: recurse on two tables, otherwise keep dst. -/
def mergeSel (dv sv : Val) : Val :=
  match dv, sv with
  | Val.table dt, Val.table st => Val.table (coalesceTables dt st)
  | _, _ => dv

/-- The lookup-level description of coalesceTables: src fills holes of
dst, a null in dst erases the key, otherwise dst wins (tables merge). -/
def coalLook (dl sl : Option Val) : Option Val :=
  match dl, sl with
  | some dv, some sv => if dv.isNull then none else some (mergeSel dv sv)
  | some dv, none => if dv.isNull then none else some dv
  | none, some sv => some sv
  | none, none => none

/-- The lookup outcome of the first loop of coalesceTables alone. -/
def srcLook (dl sl : Option Val) : Option Val :=
  match sl with
  | none => none
  | some sv => coalLook dl (some sv)

/-- Example chart for the null-deletion scenario of the spec. -/
def exDefaults1 : VTable :=
  [("a", Val.num 1), ("b", Val.table [("c", Val.num 2), ("d", Val.num 3)])]

/-- Overrides with an explicit null at path b.c. -/
def exOverrides1 : VTable :=
  [("b", Val.table [("c", Val.vnull)])]

/-- A dependency-free chart carrying the example defaults. -/
def exChart1 : Chart := Chart.mk "c1" (some (Except.ok exDefaults1)) []

/-- A chart whose defaults map key a to 1 and that also has a dependency
named a. -/
def chartDepA : Chart :=
  Chart.mk "r" (some (Except.ok [("a", Val.num 1)])) [Chart.mk "a" none []]

/-- A dependency-free chart whose defaults bind a to an explicit null. -/
def chartNullDefault : Chart :=
  Chart.mk "nulldefaults" (some (Except.ok [("a", Val.vnull)])) []

/-- A dependency-free chart with well-formed defaults. -/
def chartPlain : Chart :=
  Chart.mk "demo" (some (Except.ok [("a", Val.num 1), ("b", Val.table [("c", Val.num 2)])])) []

/-
The archive entry validator of loadArchiveFiles. Both possible
delimiters are single characters, so Go strings.Split, strings.Join and
strings.Replace specialize to the character-list functions below; path
names are processed as character lists (String.data), which the kernel
can evaluate.
-/

/-- strings.Split for a one-character separator. -/
def splitOnC (sep : Char) : List Char → List (List Char)
  | [] => [[]]
  | c :: rest =>
    let r := splitOnC sep rest
    if c = sep then [] :: r
    else
      match r with
      | [] => [[c]]
      | g :: gs => (c :: g) :: gs

/-- strings.Join for a one-character separator. -/
def joinC (sep : Char) : List (List Char) → List Char
  | [] => []
  | [g] => g
  | g :: gs => g ++ sep :: joinC sep gs

/-- strings.Replace with count -1 for one-character old and new. -/
def replaceC (a b : Char) (cs : List Char) : List Char :=
  cs.map fun c => if c = a then b else c

/-- One step of Go path.Clean on a split path: drop empty and dot
segments, pop one segment on dot-dot when possible, push otherwise.
The stack is kept reversed. -/
def pushSeg (stack : List (List Char)) (seg : List Char) : List (List Char) :=
  if seg = [] ∨ seg = ['.'] then stack
  else if seg = ['.', '.'] then
    match stack with
    | [] => [['.', '.']]
    | top :: rest => if top = ['.', '.'] then seg :: stack else rest
  else seg :: stack

/-- Go path.Clean for the relative paths that reach it here (the
absolute-path check has already rejected rooted names). -/
def pathCleanC (cs : List Char) : List Char :=
  let segs := splitOnC '/' cs
  let out := joinC '/' (segs.foldl pushSeg []).reverse
  if out = [] then ['.'] else out

/-- Go path.IsAbs: a leading slash. -/
def startsWithSlashC : List Char → Bool
  | c :: _ => c = '/'
  | [] => false

/-- strings.HasPrefix for the two-character dot-dot test. -/
def startsWithDotDotC : List Char → Bool
  | a :: b :: _ => a = '.' && b = '.'
  | _ => false

/-- The drivePathPattern regex of the source: a letter, a colon and a
slash at the start. -/
def isDrivePathC : List Char → Bool
  | a :: b :: c :: _ => a.isAlpha && b = ':' && c = '/'
  | _ => false

/-- The stripped, slash-normalized entry name: split on the working
delimiter (backslash when the name contains one), drop the first
segment, rejoin and normalize the delimiter to a slash. -/
def entryStrippedC (name : String) : List Char :=
  let cs := name.data
  let delimiter : Char := if cs.contains '\\' then '\\' else '/'
  replaceC delimiter '/' (joinC delimiter ((splitOnC delimiter cs).drop 1))

/-- The original first path segment of the entry name under the working
delimiter. -/
def entryFirstSegment (name : String) : List Char :=
  (splitOnC (if name.data.contains '\\' then '\\' else '/') name.data).headI

/-- The per-entry name validation of loadArchiveFiles: delimiter
selection, top-segment strip and normalization, then in order the
absolute-path, outside-base-directory, parent-directory, drive-letter
and Chart.yaml-in-base checks, finally yielding the cleaned name. -/
def loadArchiveEntryName (name : String) : Except String String :=
  let parts := splitOnC (if name.data.contains '\\' then '\\' else '/') name.data
  let n := entryStrippedC name
  if startsWithSlashC n then Except.error "chart illegally contains absolute paths"
  else
    let n2 := pathCleanC n
    if n2 = ['.'] then
      Except.error ("chart illegally contains content outside the base directory: " ++ name)
    else if startsWithDotDotC n2 then
      Except.error "chart illegally references parent directory"
    else if isDrivePathC n2 then Except.error "chart contains illegally named files"
    else if parts.headI = "Chart.yaml".data then
      Except.error "chart yaml not in base directory"
    else Except.ok (String.mk n2)

/-
The subchart collection of LoadFilesWithEnvValues. The loop classifies
each buffered file; names under charts/ that are not .prov files and
not hidden are grouped by their first path segment into the Go map
subcharts (a map from subchart name to its files, insertion order
immaterial to Go). The dependency loop then ranges over that map in
Go's unspecified map iteration order, modelled by the explicit iter
argument of assembleDeps. The per-group chart construction (LoadArchive
for .tgz groups, the recursive LoadFilesWithEnvValues otherwise) does
not affect which name produces which position, so assembleDeps carries
the (trimmed) groups themselves.
-/

/-- strings.IndexAny(name, "._") == 0: a leading dot or underscore. -/
def isHiddenName : List Char → Bool
  | c :: _ => c = '.' || c = '_'
  | [] => false

/-- strings.SplitN(s, sep, 2) for a one-character separator. -/
def splitN2C (sep : Char) (cs : List Char) : List (List Char) :=
  let pre := cs.takeWhile (fun c => c ≠ sep)
  if pre.length = cs.length then [cs] else [pre, cs.drop (pre.length + 1)]

/-- filepath.Ext(name) == ".prov": names under charts/ contain no
backslash-relevant separators here and Ext agrees with a suffix test
for an extension that itself has no dot. -/
def suffixProv (cs : List Char) : Bool :=
  ".prov".data.isSuffixOf cs

/-- filepath.Ext(name) == ".tgz", as a suffix test. -/
def suffixTgz (cs : List Char) : Bool :=
  ".tgz".data.isSuffixOf cs

/-- Go map read subcharts[name]. -/
def lookupG {α : Type} : List (List Char × α) → List Char → Option α
  | [], _ => none
  | (k, v) :: rest, key => if k = key then some v else lookupG rest key

/-- subcharts[scname] = append(subcharts[scname], file): extend the
group in place or create it; the association list records first-seen
key order, which Go's map forgets. -/
def appendGroup {α : Type} (sc : List (List Char × List (List Char × α)))
    (k : List Char) (f : List Char × α) : List (List Char × List (List Char × α)) :=
  match sc with
  | [] => [(k, [f])]
  | (k2, fs) :: rest =>
    if k2 = k then (k2, fs ++ [f]) :: rest else (k2, fs) :: appendGroup rest k f

/-- The charts/ branch of the classification loop: group the subchart
files by first segment of the name with the charts/ prefix removed,
skipping .prov files (kept as misc files), hidden names, and the
env-values file (matched by an earlier branch of the loop). The
Chart.yaml, values.toml, values.yaml and templates/ branches can never
match a name starting with charts/, so they need no counterpart here. -/
def collectSubcharts {α : Type} (envValuesFile : List Char)
    (files : List (List Char × α)) : List (List Char × List (List Char × α)) :=
  files.foldl
    (fun sc f =>
      if f.1 = envValuesFile then sc
      else if "charts/".data.isPrefixOf f.1 then
        if suffixProv f.1 then sc
        else
          let cname := f.1.drop 7
          if isHiddenName cname then sc
          else appendGroup sc ((splitN2C '/' cname).headI) (cname, f.2)
      else sc)
    []

/-- One group, trimmed the way the non-archive branch of the dependency
loop trims it: drop the first segment of each name and skip names with
no slash. -/
def trimGroup {α : Type} (fs : List (List Char × α)) : List (List Char × α) :=
  fs.filterMap fun f =>
    match splitN2C '/' f.1 with
    | [_] => none
    | [_, b] => some (b, f.2)
    | _ => none

/-- The dependency loop: range over the subcharts map in the iteration
order iter (unspecified for a Go map), skipping hidden names, keeping
tgz groups whole and trimming directory groups. -/
def assembleDeps {α : Type} (sc : List (List Char × List (List Char × α)))
    (iter : List (List Char)) : List (List Char × List (List Char × α)) :=
  iter.filterMap fun n =>
    if isHiddenName n then none
    else
      match lookupG sc n with
      | none => none
      | some fs => if suffixTgz n then some (n, fs) else some (n, trimGroup fs)

/-- Files whose subchart groups are first seen in the order b then a. -/
def exFiles6 : List (List Char × Nat) :=
  [("charts/b/f.yaml".data, 0), ("charts/a/g.yaml".data, 1)]

mutual

/-- Deep well-formedness of a chart: its decoded default values (when
they decode) have no duplicate keys at any depth, recursively for the
dependencies. -/
def chartNodup (c : Chart) : Bool :=
  (match c.values with
   | some (Except.ok D) => tblNodup D
   | _ => true) && chartListNodup c.deps
termination_by (sizeOf c, 1)
decreasing_by
  all_goals simp_wf
  all_goals refine Prod.Lex.left _ _ ?_
  all_goals cases c
  all_goals simp only [Chart.deps, Chart.mk.sizeOf_spec]
  all_goals omega

/-- chartNodup for every chart of a list. -/
def chartListNodup : List Chart → Bool
  | [] => true
  | c :: rest => chartNodup c && chartListNodup rest
termination_by subs => (sizeOf subs, 0)
decreasing_by
  all_goals simp_wf
  all_goals first
    | exact Prod.Lex.left _ _ (by omega)
    | exact Prod.Lex.right _ (by omega)

end

/-- A dependency chart named s with no default values of its own. -/
def chartDep2 : Chart := Chart.mk "s" none []

/-- A root chart named r with the single dependency s. -/
def chartC2 : Chart := Chart.mk "r" none [chartDep2]

/-- The inner global table of the globals examples. -/
def G2 : VTable := [("region", Val.str "us")]

/-- User overrides carrying a global table. -/
def U2 : VTable := [("global", Val.table G2)]

/-- The coalesced result for chartC2 under overrides U2. -/
def R2 : VTable := [("global", Val.table G2), ("s", Val.table [("global", Val.table G2)])]

/-- Overrides whose slot for dependency s binds global to a non-table. -/
def U2ex : VTable := [("global", Val.table G2), ("s", Val.table [("global", Val.num 5)])]

/-- The coalesced result for chartC2 under overrides U2ex: the subchart
slot ends up with an empty table, without any global entry. -/
def R2ex : VTable := [("global", Val.table G2), ("s", Val.table [])]

theorem lookupV_append (a b : VTable) (key : String) :
    lookupV (a ++ b) key =
      match lookupV a key with
      | some x => some x
      | none => lookupV b key := by
  induction a with
  | nil => simp [lookupV]
  | cons hd tl ih =>
    obtain ⟨k, v⟩ := hd
    by_cases hk : k = key
    · subst hk
      simp [lookupV]
    · simp [lookupV, hk, ih]

theorem lookupV_srcPass (dst src : VTable) (key : String) :
    lookupV (srcPass dst src) key =
      srcLook (lookupV dst key) (lookupV src key) := by
  induction src with
  | nil => simp [srcPass, lookupV, srcLook]
  | cons hd tl ih =>
    obtain ⟨k, v⟩ := hd
    rw [srcPass]
    by_cases hk : k = key
    · subst hk
      rcases hdst : lookupV dst k with _ | dv
      · simp [lookupV, hdst, srcLook, coalLook]
      · by_cases hnull : dv.isNull
        · rcases htl : lookupV tl k with _ | sv <;>
            simp [hnull, ih, hdst, htl, lookupV, srcLook, coalLook]
        · rcases v with _ | n | s | b | es | st <;>
            rcases dv with _ | n2 | s2 | b2 | es2 | dt <;>
            simp_all [lookupV, srcLook, coalLook, mergeSel, Val.isNull]
    · rcases hdst : lookupV dst k with _ | dv
      · simp [lookupV, hk, ih]
      · by_cases hnull : dv.isNull
        · simp [hnull, lookupV, hk, ih]
        · rcases v with _ | n | s | b | es | st <;>
            rcases dv with _ | n2 | s2 | b2 | es2 | dt <;>
            simp_all [lookupV, hk, Val.isNull]

theorem lookupV_eq_none_of_not_mem (t : VTable) (key : String)
    (h : key ∉ keysOf t) : lookupV t key = none := by
  induction t with
  | nil => simp [lookupV]
  | cons hd tl ih =>
    obtain ⟨k, v⟩ := hd
    simp [keysOf] at h
    simp [lookupV, Ne.symm h.1, ih (by simp [keysOf, h.2])]

theorem lookupV_copyAcross (d : VTable) (rv : VTable) (key : String)
    (hd : (keysOf d).Nodup) :
    lookupV (copyAcross rv d) key =
      match lookupV rv key with
      | some x => some x
      | none =>
        match lookupV d key with
        | some v => if v.isNull then none else some v
        | none => none := by
  induction d generalizing rv with
  | nil =>
    simp only [copyAcross, lookupV]
    rcases lookupV rv key with _ | x <;> simp
  | cons hd2 tl ih =>
    obtain ⟨k, v⟩ := hd2
    have hd2 : (k :: keysOf tl).Nodup := by simpa [keysOf] using hd
    have hk_tl : k ∉ keysOf tl := (List.nodup_cons.mp hd2).1
    have htl : (keysOf tl).Nodup := (List.nodup_cons.mp hd2).2
    by_cases hnull : v.isNull
    · rw [copyAcross, if_pos hnull, ih _ htl]
      by_cases hk : k = key
      · subst hk
        rw [lookupV_eq_none_of_not_mem tl k hk_tl]
        rcases lookupV rv k with _ | x <;> simp [lookupV, hnull]
      · rcases lookupV rv key with _ | x <;> simp [lookupV, hk]
    · rw [copyAcross, if_neg hnull]
      rcases hrv : lookupV rv k with _ | x
      · rw [ih _ htl, lookupV_append]
        by_cases hk : k = key
        · subst hk
          rw [lookupV_eq_none_of_not_mem tl k hk_tl, hrv]
          simp [lookupV, hnull]
        · rcases hrvkey : lookupV rv key with _ | y <;>
            simp [lookupV, hk, hrvkey]
      · rw [ih _ htl]
        by_cases hk : k = key
        · subst hk
          simp [lookupV, hnull, hrv]
        · simp [lookupV, hk]

/-- The lookup characterization of coalesceTables: provided dst has no
duplicate key (as a Go map always does), the binding of any key in the
result is coalLook of the bindings in dst and src. -/
theorem lookupV_coalesceTables (dst src : VTable) (key : String)
    (hd : (keysOf dst).Nodup) :
    lookupV (coalesceTables dst src) key =
      coalLook (lookupV dst key) (lookupV src key) := by
  rw [coalesceTables, lookupV_copyAcross dst _ key hd, lookupV_srcPass]
  rcases hsrc : lookupV src key with _ | sv
  · rcases hdst : lookupV dst key with _ | dv
    · simp [srcLook, coalLook]
    · by_cases hnull : dv.isNull <;> simp [srcLook, coalLook, hnull]
  · rcases hdst : lookupV dst key with _ | dv
    · simp [srcLook, coalLook]
    · by_cases hnull : dv.isNull <;> simp [srcLook, coalLook, hnull]

theorem AsMap_eq (v : VTable) : AsMap v = v := by
  unfold AsMap
  rcases v with _ | _ <;> simp

theorem containsKey_iff (t : VTable) (k : String) :
    containsKey t k = true ↔ k ∈ keysOf t := by
  induction t with
  | nil => simp [containsKey, lookupV, keysOf]
  | cons hd tl ih =>
    obtain ⟨k2, v⟩ := hd
    by_cases hk : k2 = k
    · subst hk
      simp [containsKey, lookupV, keysOf]
    · simp only [containsKey, lookupV, if_neg hk, keysOf, List.map_cons, List.mem_cons]
      rw [← keysOf]
      rw [← containsKey]
      simp [ih, Ne.symm hk]

theorem lookupV_mem (t : VTable) (k : String) (v : Val)
    (h : lookupV t k = some v) : (k, v) ∈ t := by
  induction t with
  | nil => simp [lookupV] at h
  | cons hd tl ih =>
    obtain ⟨k2, w⟩ := hd
    by_cases hk : k2 = k
    · subst hk
      simp [lookupV] at h
      simp [h]
    · simp [lookupV, hk] at h
      simp [ih h]

theorem mem_lookupV_of_nodup (t : VTable) (k : String) (v : Val)
    (hn : (keysOf t).Nodup) (h : (k, v) ∈ t) : lookupV t k = some v := by
  induction t with
  | nil => simp at h
  | cons hd tl ih =>
    obtain ⟨k2, w⟩ := hd
    have hn2 : (k2 :: keysOf tl).Nodup := by simpa [keysOf] using hn
    rcases List.mem_cons.mp h with h1 | h2
    · simp only [Prod.mk.injEq] at h1
      obtain ⟨e1, e2⟩ := h1
      subst e1
      subst e2
      simp [lookupV]
    · have hk : k2 ≠ k := by
        intro he
        subst he
        exact (List.nodup_cons.mp hn2).1 (by
          simpa [keysOf] using List.mem_map_of_mem Prod.fst h2)
      simp [lookupV, hk]
      exact ih (List.nodup_cons.mp hn2).2 h2

theorem tblNodup_iff (t : VTable) :
    tblNodup t = true ↔
      (keysOf t).Nodup ∧ ∀ k v, (k, v) ∈ t → valNodup v = true := by
  induction t with
  | nil => simp [tblNodup, keysOf]
  | cons hd tl ih =>
    obtain ⟨k, v⟩ := hd
    rw [tblNodup]
    simp only [Bool.and_eq_true, Bool.not_eq_true']
    constructor
    · rintro ⟨⟨hc, hv⟩, htl⟩
      obtain ⟨hnd, hvals⟩ := ih.mp htl
      refine ⟨?_, ?_⟩
      · simp only [keysOf, List.map_cons, List.nodup_cons]
        refine ⟨?_, by simpa [keysOf] using hnd⟩
        intro hmem
        have : containsKey tl k = true := (containsKey_iff tl k).mpr (by simpa [keysOf] using hmem)
        simp [this] at hc
      · intro k2 v2 hmem
        rcases List.mem_cons.mp hmem with h1 | h2
        · simp only [Prod.mk.injEq] at h1
          obtain ⟨e1, e2⟩ := h1
          subst e2
          exact hv
        · exact hvals k2 v2 h2
    · rintro ⟨hnd, hvals⟩
      have hnd2 : (k :: keysOf tl).Nodup := by simpa [keysOf] using hnd
      refine ⟨⟨?_, hvals k v (by simp)⟩, ih.mpr ⟨(List.nodup_cons.mp hnd2).2, ?_⟩⟩
      · rw [Bool.eq_false_iff]
        intro hc
        exact (List.nodup_cons.mp hnd2).1 ((containsKey_iff tl k).mp hc)
      · intro k2 v2 h2
        exact hvals k2 v2 (by simp [h2])

theorem tblGood_iff (t : VTable) :
    tblGood t = true ↔
      (keysOf t).Nodup ∧ ∀ k v, (k, v) ∈ t → valGood v = true := by
  induction t with
  | nil => simp [tblGood, keysOf]
  | cons hd tl ih =>
    obtain ⟨k, v⟩ := hd
    rw [tblGood]
    simp only [Bool.and_eq_true, Bool.not_eq_true']
    constructor
    · rintro ⟨⟨hc, hv⟩, htl⟩
      obtain ⟨hnd, hvals⟩ := ih.mp htl
      refine ⟨?_, ?_⟩
      · simp only [keysOf, List.map_cons, List.nodup_cons]
        refine ⟨?_, by simpa [keysOf] using hnd⟩
        intro hmem
        have : containsKey tl k = true := (containsKey_iff tl k).mpr (by simpa [keysOf] using hmem)
        simp [this] at hc
      · intro k2 v2 hmem
        rcases List.mem_cons.mp hmem with h1 | h2
        · simp only [Prod.mk.injEq] at h1
          obtain ⟨e1, e2⟩ := h1
          subst e2
          exact hv
        · exact hvals k2 v2 h2
    · rintro ⟨hnd, hvals⟩
      have hnd2 : (k :: keysOf tl).Nodup := by simpa [keysOf] using hnd
      refine ⟨⟨?_, hvals k v (by simp)⟩, ih.mpr ⟨(List.nodup_cons.mp hnd2).2, ?_⟩⟩
      · rw [Bool.eq_false_iff]
        intro hc
        exact (List.nodup_cons.mp hnd2).1 ((containsKey_iff tl k).mp hc)
      · intro k2 v2 h2
        exact hvals k2 v2 (by simp [h2])

theorem valGood_not_null (v : Val) (h : valGood v = true) : v.isNull = false := by
  cases v <;> simp_all [valGood, Val.isNull]

theorem lookupV_setV (m : VTable) (k : String) (v : Val) (key : String) :
    lookupV (setV m k v) key = if k = key then some v else lookupV m key := by
  induction m with
  | nil =>
    by_cases hk : k = key <;> simp [setV, lookupV, hk]
  | cons hd tl ih =>
    obtain ⟨k2, w⟩ := hd
    by_cases h2 : k2 = k
    · subst h2
      by_cases hk : k2 = key <;> simp [setV, lookupV, hk]
    · by_cases hk : k2 = key
      · subst hk
        have h3 : k ≠ k2 := fun he => h2 he.symm
        simp [setV, h2, lookupV, h3]
      · simp [setV, h2, lookupV, hk, ih]

theorem keysOf_append (a b : VTable) : keysOf (a ++ b) = keysOf a ++ keysOf b := by
  simp [keysOf]

theorem keysOf_setV (m : VTable) (k : String) (v : Val) :
    keysOf (setV m k v) = if containsKey m k then keysOf m else keysOf m ++ [k] := by
  induction m with
  | nil => simp [setV, keysOf, containsKey, lookupV]
  | cons hd tl ih =>
    obtain ⟨k2, w⟩ := hd
    by_cases h2 : k2 = k
    · subst h2
      simp [setV, keysOf, containsKey, lookupV]
    · simp only [setV, if_neg h2, keysOf, List.map_cons, containsKey, lookupV, if_neg h2]
      rw [← keysOf, ← keysOf, ← containsKey, ih]
      by_cases hc : containsKey tl k <;> simp [hc]

theorem nodup_keysOf_setV (m : VTable) (k : String) (v : Val)
    (h : (keysOf m).Nodup) : (keysOf (setV m k v)).Nodup := by
  rw [keysOf_setV]
  by_cases hc : containsKey m k
  · simpa [hc]
  · simp only [hc, if_neg, Bool.false_eq_true, ite_false]
    rw [List.nodup_append]
    refine ⟨h, List.nodup_singleton k, ?_⟩
    intro a ha hb
    simp at hb
    subst hb
    exact absurd ((containsKey_iff m a).mpr ha) (by simpa using hc)

theorem mem_setV (m : VTable) (k : String) (v : Val) (p : String × Val)
    (h : p ∈ setV m k v) : p ∈ m ∨ p = (k, v) := by
  induction m with
  | nil => simp [setV] at h; simp [h]
  | cons hd tl ih =>
    obtain ⟨k2, w⟩ := hd
    by_cases h2 : k2 = k
    · subst h2
      simp only [setV, if_pos rfl] at h
      rcases List.mem_cons.mp h with h1 | h1
      · right; simpa using h1
      · left; simp [h1]
    · simp only [setV, if_neg h2] at h
      rcases List.mem_cons.mp h with h1 | h1
      · left; simp [h1]
      · rcases ih h1 with h3 | h3
        · left; simp [h3]
        · right; exact h3

/-- setV preserves deep well-formedness when the inserted value is
deeply well-formed. -/
theorem tblNodup_setV (m : VTable) (k : String) (v : Val)
    (hm : tblNodup m = true) (hv : valNodup v = true) :
    tblNodup (setV m k v) = true := by
  obtain ⟨hnd, hvals⟩ := (tblNodup_iff m).mp hm
  refine (tblNodup_iff _).mpr ⟨nodup_keysOf_setV m k v hnd, ?_⟩
  intro k2 v2 h2
  rcases mem_setV m k v (k2, v2) h2 with h3 | h3
  · exact hvals k2 v2 h3
  · simp only [Prod.mk.injEq] at h3
    exact h3.2 ▸ hv

/-- The keys emitted by the first loop form a sublist of the src keys. -/
theorem keysOf_srcPass_sublist (dst src : VTable) :
    (keysOf (srcPass dst src)).Sublist (keysOf src) := by
  induction src with
  | nil => simp [srcPass, keysOf]
  | cons hd tl ih =>
    obtain ⟨k, v⟩ := hd
    rw [srcPass]
    rcases lookupV dst k with _ | dv
    · simpa [keysOf] using List.Sublist.cons₂ k ih
    · by_cases hnull : dv.isNull
      · simp only [hnull, if_pos]
        exact List.Sublist.trans ih (by simp [keysOf])
      · rcases v with _ | n | s | b | es | st <;>
          rcases dv with _ | n2 | s2 | b2 | es2 | dt <;>
          simp_all [keysOf] <;>
          exact List.Sublist.cons₂ k ih

theorem nodup_keysOf_copyAcross (d rv : VTable)
    (h : (keysOf rv).Nodup) : (keysOf (copyAcross rv d)).Nodup := by
  induction d generalizing rv with
  | nil => simpa [copyAcross]
  | cons hd tl ih =>
    obtain ⟨k, v⟩ := hd
    by_cases hnull : v.isNull
    · rw [copyAcross, if_pos hnull]
      exact ih rv h
    · rw [copyAcross, if_neg hnull]
      rcases hrv : lookupV rv k with _ | x
      · show (keysOf (copyAcross (rv ++ [(k, v)]) tl)).Nodup
        refine ih _ ?_
        rw [keysOf_append]
        rw [List.nodup_append]
        refine ⟨h, by simp [keysOf], ?_⟩
        intro a ha hb
        simp [keysOf] at hb
        subst hb
        have := (containsKey_iff rv a).mpr ha
        simp [containsKey, hrv] at this
      · show (keysOf (copyAcross rv tl)).Nodup
        exact ih rv h

/-- Entries kept or produced by the first loop: each is the src entry
itself, the dst value, or the merge of two tables bound in dst and
src. -/
theorem mem_srcPass (dst src : VTable) (p : String × Val)
    (h : p ∈ srcPass dst src) :
    p ∈ src ∨ (∃ v, lookupV dst p.1 = some v ∧ p.2 = v) ∨
      (∃ dt st, lookupV dst p.1 = some (Val.table dt) ∧ (p.1, Val.table st) ∈ src ∧
        p.2 = Val.table (coalesceTables dt st)) := by
  induction src with
  | nil => simp [srcPass] at h
  | cons hd tl ih =>
    obtain ⟨k, v⟩ := hd
    have expand : p ∈ srcPass dst tl →
        p ∈ ((k, v) :: tl : VTable) ∨ (∃ w, lookupV dst p.1 = some w ∧ p.2 = w) ∨
          (∃ dt st, lookupV dst p.1 = some (Val.table dt) ∧
            (p.1, Val.table st) ∈ ((k, v) :: tl : VTable) ∧
            p.2 = Val.table (coalesceTables dt st)) := by
      intro hq
      rcases ih hq with h2 | h2 | h2
      · left; simp [h2]
      · right; left; exact h2
      · right; right
        obtain ⟨dt, st, e1, e2, e3⟩ := h2
        exact ⟨dt, st, e1, by simp [e2], e3⟩
    rw [srcPass] at h
    split at h
    · rename_i heq
      rcases List.mem_cons.mp h with h1 | h1
      · left; simp [h1]
      · exact expand h1
    · rename_i dv heq
      split at h
      · exact expand h
      · split at h
        · rename_i st dt hnull2
          rcases List.mem_cons.mp h with h1 | h1
          · subst h1
            right; right
            refine ⟨dt, st, ?_, by simp, rfl⟩
            simpa using heq
          · exact expand h1
        · rcases List.mem_cons.mp h with h1 | h1
          · subst h1
            right; left
            exact ⟨dv, heq, rfl⟩
          · exact expand h1

theorem mem_copyAcross (d rv : VTable) (p : String × Val)
    (h : p ∈ copyAcross rv d) : p ∈ rv ∨ p ∈ d := by
  induction d generalizing rv with
  | nil => simp [copyAcross] at h; simp [h]
  | cons hd tl ih =>
    obtain ⟨k, v⟩ := hd
    by_cases hnull : v.isNull
    · rw [copyAcross, if_pos hnull] at h
      rcases ih rv h with h1 | h1
      · left; exact h1
      · right; simp [h1]
    · rw [copyAcross, if_neg hnull] at h
      rcases hrv : lookupV rv k with _ | x <;> rw [hrv] at h
      · rcases ih _ h with h1 | h1
        · rcases List.mem_append.mp h1 with h2 | h2
          · left; exact h2
          · right; simp at h2; simp [h2]
        · right; simp [h1]
      · rcases ih rv h with h1 | h1
        · left; exact h1
        · right; simp [h1]

/-- coalesceTables preserves deep well-formedness. -/
theorem tblNodup_coalesceTables :
    ∀ n dst src, sizeOf dst + sizeOf src ≤ n →
      tblNodup dst = true → tblNodup src = true →
      tblNodup (coalesceTables dst src) = true := by
  intro n
  induction n with
  | zero =>
    intro dst src hsz
    exact absurd hsz (by cases dst <;> cases src <;> simp <;> omega)
  | succ n ih =>
    intro dst src hsz hdst hsrc
    obtain ⟨hdnd, hdvals⟩ := (tblNodup_iff dst).mp hdst
    obtain ⟨hsnd, hsvals⟩ := (tblNodup_iff src).mp hsrc
    refine (tblNodup_iff _).mpr ⟨?_, ?_⟩
    · rw [coalesceTables]
      exact nodup_keysOf_copyAcross _ _
        (List.Nodup.sublist (keysOf_srcPass_sublist dst src) hsnd)
    · intro k v hmem
      rw [coalesceTables] at hmem
      rcases mem_copyAcross dst _ (k, v) hmem with h1 | h1
      · rcases mem_srcPass dst src (k, v) h1 with h2 | h2 | h2
        · exact hsvals k v h2
        · obtain ⟨w, e1, e2⟩ := h2
          dsimp only at e1 e2
          exact e2 ▸ hdvals k w (lookupV_mem dst k w e1)
        · obtain ⟨dt, st, e1, e2, e3⟩ := h2
          dsimp only at e1 e2 e3
          have h3 : valNodup (Val.table dt) = true := hdvals k _ (lookupV_mem dst k _ e1)
          have h4 : valNodup (Val.table st) = true := hsvals k _ e2
          have h5 : sizeOf dt < sizeOf dst := by
            have := List.sizeOf_lt_of_mem (lookupV_mem dst k _ e1)
            simp at this
            omega
          have h6 : sizeOf st < sizeOf src := by
            have := List.sizeOf_lt_of_mem e2
            simp at this
            omega
          rw [e3]
          rw [valNodup] at h3 h4 ⊢
          exact ih dt st (by omega) h3 h4
      · exact hdvals k v h1

theorem srcPass_nil_dst (src : VTable) : srcPass [] src = src := by
  induction src with
  | nil => simp [srcPass]
  | cons hd tl ih =>
    obtain ⟨k, v⟩ := hd
    rw [srcPass]
    simp [lookupV, ih]

/-- Merging any source into the empty destination copies it verbatim,
nulls included. -/
theorem coalesceTables_nil_dst (src : VTable) : coalesceTables [] src = src := by
  rw [coalesceTables, srcPass_nil_dst, copyAcross]

theorem copyAcross_noop (d rv : VTable)
    (h : ∀ k v, (k, v) ∈ d → v.isNull = true ∨ containsKey rv k = true) :
    copyAcross rv d = rv := by
  induction d with
  | nil => simp [copyAcross]
  | cons hd tl ih =>
    obtain ⟨k, v⟩ := hd
    rcases h k v (by simp) with h1 | h1
    · rw [copyAcross, if_pos h1]
      exact ih (fun k2 v2 h2 => h k2 v2 (by simp [h2]))
    · simp only [containsKey, Option.isSome_iff_exists] at h1
      obtain ⟨x, hx⟩ := h1
      rw [copyAcross]
      by_cases hnull : v.isNull
      · rw [if_pos hnull]
        exact ih (fun k2 v2 h2 => h k2 v2 (by simp [h2]))
      · rw [if_neg hnull, hx]
        exact ih (fun k2 v2 h2 => h k2 v2 (by simp [h2]))

theorem srcPass_self_of_sub (t : VTable) (src : VTable)
    (hself : ∀ st, sizeOf st < sizeOf t → tblGood st = true → coalesceTables st st = st)
    (hlook : ∀ k v, (k, v) ∈ src → lookupV t k = some v)
    (hsub : ∀ p, p ∈ src → p ∈ t)
    (hgood : ∀ k v, (k, v) ∈ src → valGood v = true) :
    srcPass t src = src := by
  induction src with
  | nil => simp [srcPass]
  | cons hd tl ih =>
    obtain ⟨k, v⟩ := hd
    have hkv : lookupV t k = some v := hlook k v (by simp)
    have hg : valGood v = true := hgood k v (by simp)
    have hnn : v.isNull = false := valGood_not_null v hg
    have htail : srcPass t tl = tl :=
      ih (fun k2 v2 h2 => hlook k2 v2 (by simp [h2]))
        (fun p hp => hsub p (by simp [hp]))
        (fun k2 v2 h2 => hgood k2 v2 (by simp [h2]))
    rw [srcPass, hkv]
    simp only [hnn, Bool.false_eq_true, if_neg]
    rcases v with _ | n | s | b | es | st
    · simp [Val.isNull] at hnn
    · simp [htail]
    · simp [htail]
    · simp [htail]
    · simp [htail]
    · have hst : sizeOf st < sizeOf t := by
        have := List.sizeOf_lt_of_mem (hsub (k, Val.table st) (by simp))
        simp at this
        omega
      have : coalesceTables st st = st :=
        hself st hst (by simpa [valGood] using hg)
      simp [htail, this]

/-- Coalescing a deeply well-formed (no duplicate key, no null) table
with itself is the identity. -/
theorem coalesceTables_self (t : VTable) (hg : tblGood t = true) :
    coalesceTables t t = t := by
  suffices h : ∀ n t, sizeOf t ≤ n → tblGood t = true → coalesceTables t t = t by
    exact h (sizeOf t) t le_rfl hg
  intro n
  induction n with
  | zero =>
    intro t hsz
    exact absurd hsz (by cases t <;> simp)
  | succ n ih =>
    intro t hsz hg
    obtain ⟨hnd, hvals⟩ := (tblGood_iff t).mp hg
    have hsp : srcPass t t = t := by
      refine srcPass_self_of_sub t t ?_ ?_ (fun p hp => hp) hvals
      · intro st hst hstg
        exact ih st (by omega) hstg
      · intro k v hmem
        exact mem_lookupV_of_nodup t k v hnd hmem
    rw [coalesceTables, hsp]
    refine copyAcross_noop t t ?_
    intro k v hmem
    right
    simp only [containsKey]
    rw [mem_lookupV_of_nodup t k v hnd hmem]
    rfl

theorem isNull_iff (v : Val) : v.isNull = true ↔ v = Val.vnull := by
  cases v <;> simp [Val.isNull]

/-- A null binding in dst erases the key along any path provided the
source also carries the path (as a chain of tables). -/
theorem lookupPath_coalesceTables_none :
    ∀ (p : List String) (dst src : VTable), tblNodup dst = true →
      lookupPath dst p = some Val.vnull → (lookupPath src p).isSome = true →
      lookupPath (coalesceTables dst src) p = none := by
  intro p
  induction p with
  | nil => intro dst src _ h1 _; simp [lookupPath] at h1
  | cons k rest ih =>
    intro dst src hnd h1 h2
    have hkeys : (keysOf dst).Nodup := ((tblNodup_iff dst).mp hnd).1
    rcases rest with _ | ⟨k2, rest2⟩
    · simp only [lookupPath] at h1 h2 ⊢
      rw [lookupV_coalesceTables dst src k hkeys, h1]
      rcases lookupV src k with _ | sv <;> simp [coalLook, Val.isNull]
    · simp only [lookupPath] at h1 h2 ⊢
      rcases hdk : lookupV dst k with _ | dv
      · rw [hdk] at h1; simp at h1
      · rw [hdk] at h1
        rcases dv with _ | n | s | b | es | dt <;> simp at h1
        rcases hsk : lookupV src k with _ | sv
        · rw [hsk] at h2; simp at h2
        · rw [hsk] at h2
          rcases sv with _ | n | s | b | es | st <;> simp at h2
          rw [lookupV_coalesceTables dst src k hkeys, hdk, hsk]
          simp only [coalLook, Val.isNull, Bool.false_eq_true, if_neg, mergeSel]
          have hdt : tblNodup dt = true := by
            have := ((tblNodup_iff dst).mp hnd).2 k (Val.table dt) (lookupV_mem dst k _ hdk)
            simpa [valNodup] using this
          exact ih dt st hdt h1 h2

/-- Claim C1 (amended): for a chart without dependencies, an explicit
null in the user overrides at a path that the chart defaults bind to a
non-null value makes CoalesceValues omit that path from the coalesced
values entirely. (Dependency processing can re-create such a key, which
is why the claim is restricted to dependency-free charts.) -/
theorem claim1_null_deletes (ch : Chart) (D U : VTable) (p : List String) (v : Val)
    (hdeps : ch.deps = []) (hv : ch.values = some (Except.ok D))
    (hU : tblNodup U = true)
    (hUp : lookupPath U p = some Val.vnull)
    (hDp : lookupPath D p = some v) (hvnn : v ≠ Val.vnull) :
    CoalesceValues ch (some (Except.ok U)) = Except.ok (coalesceTables U D) ∧
      lookupPath (coalesceTables U D) p = none := by
  constructor
  · simp [CoalesceValues, coalesce, coalesceValues, hv, AsMap_eq, hdeps, coalesceDepsList]
  · exact lookupPath_coalesceTables_none p U D hU hUp (by simp [hDp])

/-- Witness for claim C1 at the concrete example of the spec: defaults
a=1, b.c=2, b.d=3; overrides b.c=null; the coalesced tree is a=1,
b.d=3 with path b.c gone. -/
theorem claim1_witness :
    (CoalesceValues exChart1 (some (Except.ok exOverrides1)) =
        Except.ok (coalesceTables exOverrides1 exDefaults1) ∧
      lookupPath (coalesceTables exOverrides1 exDefaults1) ["b", "c"] = none) ∧
    coalesceTables exOverrides1 exDefaults1 =
      [("a", Val.num 1), ("b", Val.table [("d", Val.num 3)])] := by
  constructor
  · exact claim1_null_deletes exChart1 exDefaults1 exOverrides1 ["b", "c"] (Val.num 2)
      rfl rfl
      (by simp [exOverrides1, tblNodup, valNodup, containsKey, lookupV])
      (by simp [exOverrides1, lookupPath, lookupV])
      (by simp [exDefaults1, lookupPath, lookupV])
      (by simp)
  · simp [exOverrides1, exDefaults1, coalesceTables, srcPass, copyAcross, lookupV, Val.isNull]

/-- Counterexample to claim C1 as stated: the chart chartDepA has
defaults mapping a to the non-null 1 and the overrides map a to an
explicit null, yet the coalesced values still contain key a, because
dependency processing re-creates an entry for the dependency named a. -/
theorem claim1_counterexample :
    CoalesceValues chartDepA (some (Except.ok [("a", Val.vnull)])) =
      Except.ok [("a", Val.table [("global", Val.table [])])] ∧
    lookupV [("a", Val.table [("global", Val.table [])])] "a" ≠ none := by
  constructor
  · simp [chartDepA, CoalesceValues, coalesce, coalesceValues, coalesceDepsList,
      coalesceGlobals, coalesceTables, srcPass, copyAcross, lookupV, setV, AsMap,
      Chart.values, Chart.deps, Chart.name, GlobalKey, Val.isNull]
  · simp [lookupV]

/-- Claim C3 (amended): coalescing is idempotent for dependency-free
charts whose default values have no duplicate keys and no null entry at
any depth: coalescing the chart against its own first coalescing result
reproduces that result. -/
theorem claim3_idempotent_no_deps (ch : Chart) (r : VTable)
    (hdeps : ch.deps = [])
    (hgood : ∀ D, ch.values = some (Except.ok D) → tblGood D = true)
    (h1 : coalesce ch [] = Except.ok r) :
    coalesce ch r = Except.ok r := by
  rcases hv : ch.values with _ | dec
  · simp [coalesce, coalesceValues, hv, hdeps, coalesceDepsList]
  · rcases dec with e | D
    · simp [coalesce, coalesceValues, hv] at h1
    · have h2 : r = D := by
        have h3 : coalesce ch [] = Except.ok D := by
          simp [coalesce, coalesceValues, hv, AsMap_eq, hdeps, coalesceDepsList,
            coalesceTables_nil_dst]
        rw [h3] at h1
        simpa using h1.symm
      subst h2
      simp [coalesce, coalesceValues, hv, AsMap_eq, hdeps, coalesceDepsList,
        coalesceTables_self r (hgood r hv)]

/-- Witness for claim C3 at a concrete chart with defaults a=1 and
b.c=2. -/
theorem claim3_witness :
    coalesce chartPlain [("a", Val.num 1), ("b", Val.table [("c", Val.num 2)])] =
      Except.ok [("a", Val.num 1), ("b", Val.table [("c", Val.num 2)])] := by
  refine claim3_idempotent_no_deps chartPlain _ rfl ?_ ?_
  · intro D hD
    simp only [chartPlain, Chart.values, Option.some.injEq, Except.ok.injEq] at hD
    subst hD
    simp [tblGood, valGood, containsKey, lookupV]
  · simp [chartPlain, coalesce, coalesceValues, coalesceDepsList, coalesceTables,
      srcPass, copyAcross, lookupV, AsMap, Chart.values, Chart.deps, Val.isNull]

/-- Counterexample to claim C3 as stated: for a chart whose defaults
bind a to an explicit null, the first coalescing against the empty tree
keeps the null but a second coalescing over that result consumes it, so
coalesce(pkg, coalesce(pkg, empty)) differs from coalesce(pkg, empty). -/
theorem claim3_counterexample :
    coalesce chartNullDefault [] = Except.ok [("a", Val.vnull)] ∧
    coalesce chartNullDefault [("a", Val.vnull)] = Except.ok [] ∧
    (Except.ok ([] : VTable) : Except String VTable) ≠ Except.ok [("a", Val.vnull)] := by
  refine ⟨?_, ?_, by simp⟩
  · simp [chartNullDefault, coalesce, coalesceValues, coalesceDepsList, coalesceTables,
      srcPass, copyAcross, lookupV, AsMap, Chart.values, Chart.deps, Val.isNull]
  · simp [chartNullDefault, coalesce, coalesceValues, coalesceDepsList, coalesceTables,
      srcPass, copyAcross, lookupV, AsMap, Chart.values, Chart.deps, Val.isNull]

/-- Claim C4 (amended): coalesceTables consumes nulls of the
authoritative destination: a key bound to null in dst is omitted from
the result, and any null in the result at the top level can only have
been copied from src at a key absent from dst. (Nulls arriving from the
src side, such as a chart's default values, are copied through, so the
output is not null-free in general.) -/
theorem claim4_null_consumption (dst src : VTable) (hd : (keysOf dst).Nodup) :
    (∀ k, lookupV dst k = some Val.vnull → lookupV (coalesceTables dst src) k = none) ∧
    (∀ k, lookupV (coalesceTables dst src) k = some Val.vnull →
      lookupV dst k = none ∧ lookupV src k = some Val.vnull) := by
  constructor
  · intro k hk
    rw [lookupV_coalesceTables dst src k hd, hk]
    rcases lookupV src k with _ | sv <;> simp [coalLook, Val.isNull]
  · intro k hk
    rw [lookupV_coalesceTables dst src k hd] at hk
    rcases hdk : lookupV dst k with _ | dv
    · rw [hdk] at hk
      rcases hsk : lookupV src k with _ | sv
      · rw [hsk] at hk; simp [coalLook] at hk
      · rw [hsk] at hk
        simp only [coalLook, Option.some.injEq] at hk
        exact ⟨rfl, by rw [hk]⟩
    · rw [hdk] at hk
      rcases hsk : lookupV src k with _ | sv
      · rw [hsk] at hk
        by_cases hnull : dv.isNull
        · simp [coalLook, hnull] at hk
        · simp [coalLook, hnull] at hk
          subst hk
          simp [Val.isNull] at hnull
      · rw [hsk] at hk
        by_cases hnull : dv.isNull
        · simp [coalLook, hnull] at hk
        · simp [coalLook, hnull] at hk
          rcases dv with _ | n | s | b | es | dt <;> rcases sv with _ | n2 | s2 | b2 | es2 | st <;>
            simp_all [mergeSel, Val.isNull]

/-- Witness for claim C4: dst binds a to null and b to 1; src binds a
and c; a is erased, c passes through, and the only null in a result
comes from src at a key dst lacks. -/
theorem claim4_witness :
    lookupV (coalesceTables [("a", Val.vnull), ("b", Val.num 1)]
      [("a", Val.num 2), ("c", Val.num 3)]) "a" = none ∧
    (lookupV (coalesceTables [("b", Val.num 1)] [("c", Val.vnull)]) "c" = some Val.vnull →
      lookupV [("b", Val.num 1)] "c" = none ∧ lookupV [("c", Val.vnull)] "c" = some Val.vnull) := by
  constructor
  · exact (claim4_null_consumption [("a", Val.vnull), ("b", Val.num 1)]
      [("a", Val.num 2), ("c", Val.num 3)] (by simp [keysOf])).1 "a" (by simp [lookupV])
  · exact (claim4_null_consumption [("b", Val.num 1)] [("c", Val.vnull)]
      (by simp [keysOf])).2 "c"

/-- Counterexample to claim C4 as stated: a chart whose default values
bind a to an explicit null produces a coalesced values tree that binds
a to null: nulls from the source side are not consumed. -/
theorem claim4_counterexample :
    CoalesceValues chartNullDefault (some (Except.ok [])) = Except.ok [("a", Val.vnull)] ∧
    lookupV [("a", Val.vnull)] "a" = some Val.vnull := by
  constructor
  · simp [chartNullDefault, CoalesceValues, coalesce, coalesceValues, coalesceDepsList,
      coalesceTables, srcPass, copyAcross, lookupV, AsMap, Chart.values, Chart.deps,
      Val.isNull]
  · simp [lookupV]

theorem lookupV_MergeValues_yaml (E : VTable) :
    ∀ (V : VTable) (k : String), (keysOf E).Nodup →
      lookupV (MergeValues asValuesYaml V E) k =
        match lookupV E k with
        | some sv => some sv
        | none => lookupV V k := by
  induction E with
  | nil =>
    intro V k _
    rw [MergeValues]
    simp [lookupV]
  | cons hd tl ih =>
    intro V k hE
    obtain ⟨k2, v⟩ := hd
    have hE2 : (k2 :: keysOf tl).Nodup := by simpa [keysOf] using hE
    have hk2tl : k2 ∉ keysOf tl := (List.nodup_cons.mp hE2).1
    have htl : (keysOf tl).Nodup := (List.nodup_cons.mp hE2).2
    have hmk : mergeKey asValuesYaml V k2 v = setV V k2 v := by
      rw [mergeKey]
      rcases hV : lookupV V k2 with _ | dv
      · rfl
      · cases v <;> simp [asValuesYaml]
    have step : MergeValues asValuesYaml V ((k2, v) :: tl) =
        MergeValues asValuesYaml (setV V k2 v) tl := by
      rw [MergeValues, hmk]
    rw [step, ih (setV V k2 v) k htl]
    by_cases hk : k2 = k
    · subst hk
      rw [lookupV_eq_none_of_not_mem tl k2 hk2tl]
      simp [lookupV, lookupV_setV]
    · rw [lookupV_setV]
      simp only [hk, if_neg, if_false]
      rcases htlk : lookupV tl k with _ | sv <;> simp [lookupV, hk, htlk]

/-- Claim C5 (amended): the environment overlay is merged into the
default values with the environment winning for every key; since both
trees come from the YAML decoder, whose nested maps never carry the
dynamic type Values, the type-asserted recursion branch of MergeValues
is never taken in the loader and every value (nested maps included) is
replaced wholesale; the merged map becomes the chart default values
only when it is non-empty. -/
theorem claim5_env_overlay (V E : VTable) (hE : (keysOf E).Nodup) :
    (∀ k sv, lookupV E k = some sv →
      lookupV (MergeValues asValuesYaml V E) k = some sv) ∧
    (∀ k, lookupV E k = none →
      lookupV (MergeValues asValuesYaml V E) k = lookupV V k) ∧
    (∀ files env, loadDefaultValues files env = none ↔
      MergeValues asValuesYaml (loadValuesPass files env).1 (loadValuesPass files env).2 = []) := by
  refine ⟨?_, ?_, ?_⟩
  · intro k sv hk
    rw [lookupV_MergeValues_yaml E V k hE, hk]
  · intro k hk
    rw [lookupV_MergeValues_yaml E V k hE, hk]
  · intro files env
    cases h : MergeValues asValuesYaml (loadValuesPass files env).1
        (loadValuesPass files env).2 with
    | nil => simp [loadDefaultValues, h]
    | cons a tl2 => simp [loadDefaultValues, h]

/-- Witness for claim C5 at the concrete example of the spec:
values.yaml env=base, flag=true and dev.yaml env=dev give default
values env=dev, flag=true; the merged map is non-empty and assigned. -/
theorem claim5_witness :
    lookupV (MergeValues asValuesYaml
      [("env", Val.str "base"), ("flag", Val.bool true)] [("env", Val.str "dev")]) "env" =
        some (Val.str "dev") ∧
    lookupV (MergeValues asValuesYaml
      [("env", Val.str "base"), ("flag", Val.bool true)] [("env", Val.str "dev")]) "flag" =
        some (Val.bool true) ∧
    loadDefaultValues
      [("values.yaml", [("env", Val.str "base"), ("flag", Val.bool true)]),
       ("dev.yaml", [("env", Val.str "dev")])] "dev.yaml" =
      some [("env", Val.str "dev"), ("flag", Val.bool true)] := by
  refine ⟨?_, ?_, ?_⟩
  · exact (claim5_env_overlay [("env", Val.str "base"), ("flag", Val.bool true)]
      [("env", Val.str "dev")] (by simp [keysOf])).1 "env" (Val.str "dev") (by simp [lookupV])
  · exact (claim5_env_overlay [("env", Val.str "base"), ("flag", Val.bool true)]
      [("env", Val.str "dev")] (by simp [keysOf])).2.1 "flag" (by simp [lookupV])
  · simp [loadDefaultValues, loadValuesPass, MergeValues, mergeKey, asValuesYaml, setV,
      lookupV]

/-- Counterexample to claim C5 as stated: with YAML-decoded data the
v.(Values) assertion fails for the nested map under a, so MergeValues
replaces it wholesale and key a.y of the defaults is lost, where the
claim promises a recursive merge that keeps it (the recursive behavior
would only arise for values carrying the dynamic type Values, as the
istable instantiation shows). -/
theorem claim5_counterexample :
    MergeValues asValuesYaml [("a", Val.table [("x", Val.num 1), ("y", Val.num 2)])]
        [("a", Val.table [("x", Val.num 9)])] = [("a", Val.table [("x", Val.num 9)])] ∧
    lookupPath [("a", Val.table [("x", Val.num 9)])] ["a", "y"] = none ∧
    MergeValues istable [("a", Val.table [("x", Val.num 1), ("y", Val.num 2)])]
        [("a", Val.table [("x", Val.num 9)])] =
      [("a", Val.table [("x", Val.num 9), ("y", Val.num 2)])] := by
  refine ⟨?_, by simp [lookupPath, lookupV], ?_⟩
  · simp [MergeValues, mergeKey, asValuesYaml, setV, lookupV]
  · simp [MergeValues, mergeKey, istable, setV, lookupV]

/-- Claim C7 (amended): with a supplied config, CoalesceValues hands the
decoded overrides U to coalesce, which merges the chart defaults under
U (dest-wins-with-null-deletion, overrides authoritative) and then
walks the dependencies; a decode failure is returned as the error. With
no config supplied (nil), CoalesceValues skips coalesce entirely and
only runs coalesceDeps over the fresh empty tree, so the root chart's
own defaults are not merged in that case. -/
theorem claim7_dispatch (chrt : Chart) (U D : VTable)
    (hD : chrt.values = some (Except.ok D)) :
    CoalesceValues chrt (some (Except.ok U)) = coalesce chrt U ∧
    coalesce chrt U = coalesceDepsList chrt.deps (coalesceTables U D) ∧
    CoalesceValues chrt none = coalesceDepsList chrt.deps [] ∧
    (∀ e, CoalesceValues chrt (some (Except.error e)) = Except.error e) ∧
    (chrt.deps = [] → CoalesceValues chrt (some (Except.ok [])) = Except.ok D) := by
  refine ⟨rfl, ?_, rfl, fun e => rfl, ?_⟩
  · simp [coalesce, coalesceValues, hD, AsMap_eq]
  · intro hdeps
    simp [CoalesceValues, coalesce, coalesceValues, hD, AsMap_eq, hdeps,
      coalesceDepsList, coalesceTables_nil_dst]

/-- Witness for claim C7: the chart with defaults a=1, b.c=2 has those
defaults merged when an empty (but supplied) overrides config arrives. -/
theorem claim7_witness :
    CoalesceValues chartPlain (some (Except.ok [])) =
      Except.ok [("a", Val.num 1), ("b", Val.table [("c", Val.num 2)])] :=
  (claim7_dispatch chartPlain []
    [("a", Val.num 1), ("b", Val.table [("c", Val.num 2)])] rfl).2.2.2.2 rfl

/-- Counterexample to claim C7 as stated: with a nil config the same
chart yields the empty tree: its defaults were not merged, although the
claim says they are merged for every input including absent overrides. -/
theorem claim7_counterexample :
    CoalesceValues chartPlain none = Except.ok [] ∧
    CoalesceValues chartPlain (some (Except.ok [])) =
      Except.ok [("a", Val.num 1), ("b", Val.table [("c", Val.num 2)])] ∧
    (Except.ok ([] : VTable) : Except String VTable) ≠
      Except.ok [("a", Val.num 1), ("b", Val.table [("c", Val.num 2)])] := by
  refine ⟨?_, ?_, by simp⟩
  · simp [chartPlain, CoalesceValues, coalesceDeps, coalesceDepsList, Chart.deps]
  · simp [chartPlain, CoalesceValues, coalesce, coalesceValues, coalesceDepsList,
      coalesceTables, srcPass, copyAcross, lookupV, AsMap, Chart.values, Chart.deps,
      Val.isNull]

/-- Claim C9: PathValue rejects the empty path up front with an error,
for every values tree, before any lookup. -/
theorem claim9_empty_path (v : VTable) :
    PathValue v "" = Except.error "YAML path string cannot be zero length" := by
  simp [PathValue]

/-- Claim C10: whenever the decode outcome holds zero entries (a nil or
empty map), ReadValues returns the fresh non-nil empty mapping; the
result map is never nil; the decoder error is passed through unchanged;
and on the empty input (which decodes to a nil map with no error) the
call returns the empty mapping and no error. -/
theorem claim10_ReadValues (d : DecodeOutcome) :
    (ReadValues d).1 ≠ none ∧
    (lenOpt d.vals = 0 → (ReadValues d).1 = some []) ∧
    (ReadValues d).2 = d.err ∧
    ReadValues yamlDecodeEmptyInput = (some [], none) := by
  refine ⟨?_, ?_, rfl, rfl⟩
  · unfold ReadValues
    by_cases h : lenOpt d.vals = 0
    · simp [h]
    · simp only [h, if_neg]
      rcases hd : d.vals with _ | m
      · rw [hd] at h; simp [lenOpt] at h
      · simp
  · intro h
    simp [ReadValues, h]

/-- Witness for claim C10 at the nil-map, no-error decode outcome. -/
theorem claim10_witness :
    (ReadValues (DecodeOutcome.mk none none)).1 = some [] :=
  (claim10_ReadValues ⟨none, none⟩).2.1 rfl

/-- Claim C8 (amended): for an entry that passes the absolute-path,
outside-base-directory, parent-directory and drive-letter checks, the
validator rejects with the Chart.yaml-not-in-base-directory error
exactly when the original first path segment is Chart.yaml, regardless
of what the cleaned top-stripped path is. -/
theorem claim8_chartyaml_rule (name : String)
    (h1 : startsWithSlashC (entryStrippedC name) = false)
    (h2 : pathCleanC (entryStrippedC name) ≠ ['.'])
    (h3 : startsWithDotDotC (pathCleanC (entryStrippedC name)) = false)
    (h4 : isDrivePathC (pathCleanC (entryStrippedC name)) = false) :
    loadArchiveEntryName name = Except.error "chart yaml not in base directory" ↔
      entryFirstSegment name = "Chart.yaml".data := by
  unfold loadArchiveEntryName entryFirstSegment
  simp only [h1, h2, h3, h4, Bool.false_eq_true, if_neg, if_false, ite_false]
  by_cases hc : (splitOnC (if name.data.contains '\\' then '\\' else '/') name.data).headI =
      "Chart.yaml".data
  · simp [hc]
  · simp [hc]

/-- Witness for claim C8: an archive entry Chart.yaml/Chart.yaml (first
segment Chart.yaml) is rejected by the rule, and a regular entry under
a top directory is accepted with its top segment stripped. -/
theorem claim8_witness :
    (loadArchiveEntryName "Chart.yaml/Chart.yaml" =
        Except.error "chart yaml not in base directory" ↔
      entryFirstSegment "Chart.yaml/Chart.yaml" = "Chart.yaml".data) ∧
    loadArchiveEntryName "top/sub/file.yaml" = Except.ok "sub/file.yaml" := by
  constructor
  · exact claim8_chartyaml_rule "Chart.yaml/Chart.yaml"
      (by decide) (by decide) (by decide) (by decide)
  · rfl

/-- Counterexample to claim C8 as stated: the entry Chart.yaml/foo has
cleaned top-stripped path foo, different from Chart.yaml, so under the
claimed conjunction it would not be rejected by this rule; the code
rejects it anyway, because only the first segment is tested. -/
theorem claim8_counterexample :
    loadArchiveEntryName "Chart.yaml/foo" =
      Except.error "chart yaml not in base directory" ∧
    pathCleanC (entryStrippedC "Chart.yaml/foo") = "foo".data ∧
    "foo".data ≠ "Chart.yaml".data := by
  refine ⟨rfl, by decide, by decide⟩

/-- A key of the map is found by the Go map read. -/
theorem lookupG_isSome_of_mem_keys {α : Type} (sc : List (List Char × α)) (n : List Char)
    (h : n ∈ sc.map Prod.fst) : (lookupG sc n).isSome = true := by
  induction sc with
  | nil => simp at h
  | cons hd tl ih =>
    obtain ⟨k, fs⟩ := hd
    rw [List.map_cons] at h
    by_cases hk : k = n
    · simp [lookupG, hk]
    · simp only [lookupG, hk, if_neg, if_false]
      rcases List.mem_cons.mp h with h1 | h1
      · exact absurd h1.symm hk
      · exact ih h1

theorem assembleDeps_names {α : Type} (sc : List (List Char × List (List Char × α))) :
    ∀ iter : List (List Char), (∀ m ∈ iter, (lookupG sc m).isSome = true) →
      (assembleDeps sc iter).map Prod.fst = iter.filter (fun n => !isHiddenName n) := by
  intro iter
  induction iter with
  | nil => intro _; simp [assembleDeps]
  | cons n rest ih =>
    intro hsub
    have hn : (lookupG sc n).isSome = true := hsub n (by simp)
    have hrest : ∀ m ∈ rest, (lookupG sc m).isSome = true :=
      fun m hm => hsub m (List.mem_cons_of_mem n hm)
    by_cases hh : isHiddenName n
    · simp only [assembleDeps, List.filterMap_cons, hh, if_pos, ite_true]
      rw [← assembleDeps]
      simp [List.filter_cons, hh, ih hrest]
    · rcases hfs : lookupG sc n with _ | fs
      · rw [hfs] at hn; simp at hn
      · simp only [assembleDeps, List.filterMap_cons, hh, Bool.false_eq_true, if_neg,
          ite_false, hfs]
        rw [← assembleDeps]
        by_cases ht : suffixTgz n
        · simp [ht, List.filter_cons, hh, ih hrest]
        · simp [ht, List.filter_cons, hh, ih hrest]

/-- Claim C6 (amended): the dependencies are emitted in the order the
subcharts map happens to be iterated, which for a Go map is arbitrary
rather than the order the entries were first seen: for every iteration
order that enumerates the collected subchart names, the dependency
names are exactly the non-hidden names of that iteration order. -/
theorem claim6_dep_order {α : Type} (files : List (List Char × α))
    (env : List Char) (iter : List (List Char))
    (hperm : iter.Perm ((collectSubcharts env files).map Prod.fst)) :
    (assembleDeps (collectSubcharts env files) iter).map Prod.fst =
      iter.filter (fun n => !isHiddenName n) :=
  assembleDeps_names (collectSubcharts env files) iter
    (fun m hm => lookupG_isSome_of_mem_keys _ m (hperm.subset hm))

/-- Witness for claim C6 at the concrete two-subchart collection with
the iteration order a then b. -/
theorem claim6_witness :
    (assembleDeps (collectSubcharts [] exFiles6) ["a".data, "b".data]).map Prod.fst =
      List.filter (fun n => !isHiddenName n) ["a".data, "b".data] :=
  claim6_dep_order exFiles6 [] ["a".data, "b".data] (by decide)

/-- Counterexample to claim C6 as stated: the subchart groups of
exFiles6 are first seen in the order b, a, but the iteration order a, b
is an admissible Go map range order and yields the dependencies in the
order a, b, not the first-seen order. -/
theorem claim6_counterexample :
    (collectSubcharts [] exFiles6).map Prod.fst = ["b".data, "a".data] ∧
    List.Perm ["a".data, "b".data] ((collectSubcharts [] exFiles6).map Prod.fst) ∧
    (assembleDeps (collectSubcharts [] exFiles6) ["a".data, "b".data]).map Prod.fst =
      ["a".data, "b".data] ∧
    (["a".data, "b".data] : List (List Char)) ≠ ["b".data, "a".data] := by
  refine ⟨by decide, by decide, by decide, by decide⟩

/-
Claim C2: propagation of the parent globals into every dependency.
-/

theorem tblNodup_coalesceTables2 (dst src : VTable)
    (h1 : tblNodup dst = true) (h2 : tblNodup src = true) :
    tblNodup (coalesceTables dst src) = true :=
  tblNodup_coalesceTables (sizeOf dst + sizeOf src) dst src le_rfl h1 h2

theorem tblNodup_of_lookup_table (t u : VTable) (k : String)
    (hn : tblNodup t = true) (h : lookupV t k = some (Val.table u)) :
    tblNodup u = true := by
  have := ((tblNodup_iff t).mp hn).2 k (Val.table u) (lookupV_mem t k _ h)
  simpa [valNodup] using this

theorem keysOf_nodup_of_tblNodup (t : VTable) (hn : tblNodup t = true) :
    (keysOf t).Nodup :=
  ((tblNodup_iff t).mp hn).1

/-- A non-null, non-table binding of the authoritative dst survives
coalesceTables unchanged. -/
theorem lookupV_coalesceTables_keep (dst src : VTable) (k : String) (v : Val)
    (hd : (keysOf dst).Nodup) (hk : lookupV dst k = some v)
    (hvn : v ≠ Val.vnull) (hvt : istable v = false) :
    lookupV (coalesceTables dst src) k = some v := by
  rw [lookupV_coalesceTables dst src k hd, hk]
  have hnull : v.isNull = false := by
    rcases v with _ | n | s | b | es | t <;> simp_all [Val.isNull]
  rcases hsk : lookupV src k with _ | sv
  · simp [coalLook, hnull]
  · rcases v with _ | n | s | b | es | t <;>
      simp_all [coalLook, mergeSel, Val.isNull, istable]

/-- The two good branches of coalesceGlobals: with a table-typed global
in src and an absent or table-typed global in the child, the child is
copied with its global entry replaced by the parent-authoritative merge
of the two global tables. -/
theorem coalesceGlobals_global (child src : VTable) (G : VTable)
    (hsrc : lookupV src GlobalKey = some (Val.table G)) :
    (lookupV child GlobalKey = none →
      coalesceGlobals child src = setV child GlobalKey (Val.table (coalesceTables G []))) ∧
    (∀ gt, lookupV child GlobalKey = some (Val.table gt) →
      coalesceGlobals child src = setV child GlobalKey (Val.table (coalesceTables G gt))) := by
  constructor
  · intro hc
    rw [coalesceGlobals, hc, hsrc]
  · intro gt hc
    rw [coalesceGlobals, hc, hsrc]

/-- Keys that are not dependency names pass through the dependency loop
unchanged. -/
theorem coalesceDepsList_lookup_ne (subs : List Chart) :
    ∀ dest out k, coalesceDepsList subs dest = Except.ok out →
      k ∉ subs.map Chart.name → lookupV out k = lookupV dest k := by
  induction subs with
  | nil =>
    intro dest out k h _
    rw [coalesceDepsList] at h
    simp only [Except.ok.injEq] at h
    rw [h]
  | cons sub rest ih =>
    intro dest out k h hk
    have hk1 : k ≠ sub.name := by simp at hk; exact hk.1
    have hk2 : k ∉ rest.map Chart.name := by simp at hk; simpa using hk.2
    rw [coalesceDepsList] at h
    rcases hdn : lookupV dest sub.name with _ | c
    · rw [hdn] at h
      replace h :
          (match coalesce sub (coalesceGlobals [] (setV dest sub.name (Val.table []))) with
            | Except.error e => Except.error e
            | Except.ok cres =>
              coalesceDepsList rest
                (setV (setV dest sub.name (Val.table [])) sub.name (Val.table cres))) =
            Except.ok out := h
      rcases hco : coalesce sub (coalesceGlobals [] (setV dest sub.name (Val.table []))) with
        e | cres <;> rw [hco] at h
      · exact Except.noConfusion
          (show (Except.error e : Except String VTable) = Except.ok out from h)
      · have hne : sub.name ≠ k := fun he => hk1 he.symm
        rw [ih _ _ k h hk2, lookupV_setV, lookupV_setV]
        simp [hne]
    · rw [hdn] at h
      rcases c with _ | n | s | b | es | dvmap
      case table =>
        replace h :
            (match coalesce sub (coalesceGlobals dvmap dest) with
              | Except.error e => Except.error e
              | Except.ok cres =>
                coalesceDepsList rest (setV dest sub.name (Val.table cres))) =
              Except.ok out := h
        rcases hco : coalesce sub (coalesceGlobals dvmap dest) with e | cres <;> rw [hco] at h
        · exact Except.noConfusion
            (show (Except.error e : Except String VTable) = Except.ok out from h)
        · have hne : sub.name ≠ k := fun he => hk1 he.symm
          rw [ih _ _ k h hk2, lookupV_setV]
          simp [hne]
      all_goals simp at h

theorem chartNodup_values (ch : Chart) (D : VTable) (h : chartNodup ch = true)
    (hv : ch.values = some (Except.ok D)) : tblNodup D = true := by
  rw [chartNodup, hv] at h
  exact (Bool.and_eq_true .. ▸ h).1

theorem chartNodup_deps (ch : Chart) (h : chartNodup ch = true) :
    chartListNodup ch.deps = true := by
  rw [chartNodup] at h
  exact (Bool.and_eq_true .. ▸ h).2

theorem chartListNodup_cons (c : Chart) (rest : List Chart)
    (h : chartListNodup (c :: rest) = true) :
    chartNodup c = true ∧ chartListNodup rest = true := by
  rw [chartListNodup] at h
  exact Bool.and_eq_true .. ▸ h

theorem tblNodup_nil : tblNodup ([] : VTable) = true := by
  rw [tblNodup]

theorem valNodup_table (t : VTable) : valNodup (Val.table t) = tblNodup t := by
  rw [valNodup]

theorem tblNodup_coalesceGlobals (child src : VTable)
    (hc : tblNodup child = true) (hs : tblNodup src = true) :
    tblNodup (coalesceGlobals child src) = true := by
  rw [coalesceGlobals]
  rcases hcg : lookupV child GlobalKey with _ | cv
  · rcases hsg : lookupV src GlobalKey with _ | sv
    · exact tblNodup_setV _ _ _ hc
        (by rw [valNodup_table]; exact tblNodup_coalesceTables2 _ _ tblNodup_nil tblNodup_nil)
    · rcases sv with _ | n | s | b | es | sg
      case table =>
        exact tblNodup_setV _ _ _ hc
          (by rw [valNodup_table]
              exact tblNodup_coalesceTables2 _ _
                (tblNodup_of_lookup_table src sg GlobalKey hs hsg) tblNodup_nil)
      all_goals exact tblNodup_nil
  · rcases cv with _ | n | s | b | es | dg
    case table =>
      have hdg : tblNodup dg = true := tblNodup_of_lookup_table child dg GlobalKey hc hcg
      rcases hsg : lookupV src GlobalKey with _ | sv
      · exact tblNodup_setV _ _ _ hc
          (by rw [valNodup_table]; exact tblNodup_coalesceTables2 _ _ tblNodup_nil hdg)
      · rcases sv with _ | n | s | b | es | sg
        case table =>
          exact tblNodup_setV _ _ _ hc
            (by rw [valNodup_table]
                exact tblNodup_coalesceTables2 _ _
                  (tblNodup_of_lookup_table src sg GlobalKey hs hsg) hdg)
        all_goals exact hdg
    all_goals exact tblNodup_nil

/-- Deep well-formedness (no duplicate keys) is preserved by the whole
coalescing pass, for charts whose default values are well-formed. -/
theorem coalesce_preserves_nodup :
    ∀ n,
      (∀ ch dest out, sizeOf ch ≤ n → chartNodup ch = true → tblNodup dest = true →
        coalesce ch dest = Except.ok out → tblNodup out = true) ∧
      (∀ subs dest out, sizeOf subs ≤ n → chartListNodup subs = true → tblNodup dest = true →
        coalesceDepsList subs dest = Except.ok out → tblNodup out = true) := by
  intro n
  induction n with
  | zero =>
    constructor
    · intro ch dest out hsz
      exact absurd hsz (by cases ch <;> simp)
    · intro subs dest out hsz
      exact absurd hsz (by cases subs <;> simp)
  | succ n ih =>
    obtain ⟨ihc, ihl⟩ := ih
    constructor
    · intro ch dest out hsz hch hdest h
      rw [coalesce] at h
      rcases hv : coalesceValues ch dest with e | dest2 <;> rw [hv] at h
      · exact Except.noConfusion
          (show (Except.error e : Except String VTable) = Except.ok out from h)
      · have hd2 : tblNodup dest2 = true := by
          rw [coalesceValues] at hv
          rcases hval : ch.values with _ | dec
          · rw [hval] at hv
            simp only [Except.ok.injEq] at hv
            rw [← hv]; exact hdest
          · rcases dec with e2 | D
            · rw [hval] at hv; simp at hv
            · rw [hval] at hv
              simp only [Except.ok.injEq] at hv
              rw [← hv, AsMap_eq]
              exact tblNodup_coalesceTables2 _ _ hdest (chartNodup_values ch D hch hval)
        have hsz2 : sizeOf ch.deps ≤ n := by
          have : sizeOf ch.deps < sizeOf ch := by
            cases ch
            simp only [Chart.deps, Chart.mk.sizeOf_spec]
            omega
          omega
        exact ihl ch.deps dest2 out hsz2 (chartNodup_deps ch hch) hd2 h
    · intro subs dest out hsz hsubs hdest h
      cases subs with
      | nil =>
        rw [coalesceDepsList] at h
        simp only [Except.ok.injEq] at h
        rw [← h]; exact hdest
      | cons sub rest =>
        obtain ⟨hsub1, hrest1⟩ := chartListNodup_cons sub rest hsubs
        have hszsub : sizeOf sub ≤ n := by simp at hsz; omega
        have hszrest : sizeOf rest ≤ n := by simp at hsz; omega
        rw [coalesceDepsList] at h
        rcases hdn : lookupV dest sub.name with _ | c <;> rw [hdn] at h
        · replace h :
              (match coalesce sub (coalesceGlobals [] (setV dest sub.name (Val.table []))) with
                | Except.error e => Except.error e
                | Except.ok cres =>
                  coalesceDepsList rest
                    (setV (setV dest sub.name (Val.table [])) sub.name (Val.table cres))) =
                Except.ok out := h
          rcases hco : coalesce sub (coalesceGlobals [] (setV dest sub.name (Val.table [])))
            with e | cres <;> rw [hco] at h
          · exact Except.noConfusion
              (show (Except.error e : Except String VTable) = Except.ok out from h)
          · have hd2 : tblNodup (setV dest sub.name (Val.table [])) = true :=
              tblNodup_setV _ _ _ hdest (by rw [valNodup_table]; exact tblNodup_nil)
            have hcw : tblNodup (coalesceGlobals [] (setV dest sub.name (Val.table []))) = true :=
              tblNodup_coalesceGlobals _ _ tblNodup_nil hd2
            have hcres : tblNodup cres = true := ihc sub _ cres hszsub hsub1 hcw hco
            exact ihl rest _ out hszrest hrest1
              (tblNodup_setV _ _ _ hd2 (by rw [valNodup_table]; exact hcres)) h
        · rcases c with _ | n2 | s2 | b2 | es2 | dvmap
          case table =>
            replace h :
                (match coalesce sub (coalesceGlobals dvmap dest) with
                  | Except.error e => Except.error e
                  | Except.ok cres =>
                    coalesceDepsList rest (setV dest sub.name (Val.table cres))) =
                  Except.ok out := h
            rcases hco : coalesce sub (coalesceGlobals dvmap dest) with e | cres <;>
              rw [hco] at h
            · exact Except.noConfusion
                (show (Except.error e : Except String VTable) = Except.ok out from h)
            · have hdv : tblNodup dvmap = true :=
                tblNodup_of_lookup_table dest dvmap sub.name hdest hdn
              have hcw : tblNodup (coalesceGlobals dvmap dest) = true :=
                tblNodup_coalesceGlobals _ _ hdv hdest
              have hcres : tblNodup cres = true := ihc sub _ cres hszsub hsub1 hcw hco
              exact ihl rest _ out hszrest hrest1
                (tblNodup_setV _ _ _ hdest (by rw [valNodup_table]; exact hcres)) h
          all_goals simp at h

/-- A non-null, non-table entry of the global table of the authoritative
dest survives a whole coalesce of a chart none of whose direct
dependencies is named global. -/
theorem coalesce_keeps_global (d : Chart) (W cres g : VTable) (k : String) (v : Val)
    (hWn : tblNodup W = true)
    (hW : lookupV W GlobalKey = some (Val.table g))
    (hg : lookupV g k = some v) (hvn : v ≠ Val.vnull) (hvt : istable v = false)
    (hGd : GlobalKey ∉ d.deps.map Chart.name)
    (hco : coalesce d W = Except.ok cres) :
    ∃ gd, lookupV cres GlobalKey = some (Val.table gd) ∧ lookupV gd k = some v := by
  rw [coalesce] at hco
  rcases hv : coalesceValues d W with e | dest2 <;> rw [hv] at hco
  · exact Except.noConfusion
      (show (Except.error e : Except String VTable) = Except.ok cres from hco)
  · have hkeysW : (keysOf W).Nodup := keysOf_nodup_of_tblNodup W hWn
    have hgn : tblNodup g = true := tblNodup_of_lookup_table W g GlobalKey hWn hW
    have hkeysg : (keysOf g).Nodup := keysOf_nodup_of_tblNodup g hgn
    have hmain : ∃ g2, lookupV dest2 GlobalKey = some (Val.table g2) ∧
        lookupV g2 k = some v := by
      rw [coalesceValues] at hv
      rcases hval : d.values with _ | dec
      · rw [hval] at hv
        simp only [Except.ok.injEq] at hv
        rw [← hv]
        exact ⟨g, hW, hg⟩
      · rcases dec with e2 | D
        · rw [hval] at hv; simp at hv
        · rw [hval] at hv
          simp only [Except.ok.injEq] at hv
          rw [← hv, AsMap_eq]
          rw [lookupV_coalesceTables W D GlobalKey hkeysW, hW]
          rcases hDg : lookupV D GlobalKey with _ | dv
          · refine ⟨g, ?_, hg⟩
            simp [coalLook, Val.isNull]
          · rcases dv with _ | n | s | b | es | Dg
            case table =>
              refine ⟨coalesceTables g Dg, ?_, ?_⟩
              · simp [coalLook, Val.isNull, mergeSel]
              · exact lookupV_coalesceTables_keep g Dg k v hkeysg hg hvn hvt
            all_goals
              refine ⟨g, ?_, hg⟩
            all_goals
              simp [coalLook, Val.isNull, mergeSel]
    obtain ⟨g2, hg2, hg2k⟩ := hmain
    refine ⟨g2, ?_, hg2k⟩
    rw [coalesceDepsList_lookup_ne d.deps dest2 cres GlobalKey hco hGd, hg2]

/-- Through the dependency loop, every dependency d of the list receives
a global table containing each non-null, non-table entry of the global
table of dest, provided dest is well-formed, names do not collide with
the global key, and the slot of d in dest is absent or a table whose
global sub-entry is absent or a table. -/
theorem coalesceDepsList_global_reaches (subs : List Chart) :
    ∀ dest out d G k v,
      coalesceDepsList subs dest = Except.ok out →
      d ∈ subs →
      (subs.map Chart.name).Nodup →
      chartListNodup subs = true →
      tblNodup dest = true →
      GlobalKey ∉ subs.map Chart.name →
      GlobalKey ∉ d.deps.map Chart.name →
      lookupV dest GlobalKey = some (Val.table G) →
      lookupV G k = some v → v ≠ Val.vnull → istable v = false →
      (lookupV dest d.name = none ∨
        ∃ dvmap, lookupV dest d.name = some (Val.table dvmap) ∧
          (lookupV dvmap GlobalKey = none ∨
            ∃ gt, lookupV dvmap GlobalKey = some (Val.table gt))) →
      ∃ cres gd, lookupV out d.name = some (Val.table cres) ∧
        lookupV cres GlobalKey = some (Val.table gd) ∧ lookupV gd k = some v := by
  induction subs with
  | nil =>
    intro dest out d G k v _ hmem
    simp at hmem
  | cons sub rest ih =>
    intro dest out d G k v h hmem hnames hchn hdest hGnotin hGd hdestG hGk hvn hvt hslot
    rw [List.map_cons] at hnames hGnotin
    obtain ⟨hn1, hn2⟩ := List.nodup_cons.mp hnames
    have hGpair : GlobalKey ≠ sub.name ∧ GlobalKey ∉ rest.map Chart.name := by
      rw [List.mem_cons] at hGnotin
      exact not_or.mp hGnotin
    obtain ⟨hsub1, hrest1⟩ := chartListNodup_cons sub rest hchn
    have hG : tblNodup G = true := tblNodup_of_lookup_table dest G GlobalKey hdest hdestG
    have hkeysG : (keysOf G).Nodup := keysOf_nodup_of_tblNodup G hG
    rcases List.mem_cons.mp hmem with hd | hd
    · -- d is the head of the list
      subst hd
      rw [coalesceDepsList] at h
      rcases hdn : lookupV dest d.name with _ | c <;> rw [hdn] at h
      · -- absent slot: a fresh empty table is created for d
        replace h :
            (match coalesce d (coalesceGlobals [] (setV dest d.name (Val.table []))) with
              | Except.error e => Except.error e
              | Except.ok cres =>
                coalesceDepsList rest
                  (setV (setV dest d.name (Val.table [])) d.name (Val.table cres))) =
              Except.ok out := h
        rcases hco : coalesce d (coalesceGlobals [] (setV dest d.name (Val.table [])))
          with e | cres <;> rw [hco] at h
        · exact Except.noConfusion
            (show (Except.error e : Except String VTable) = Except.ok out from h)
        · have hsrcG : lookupV (setV dest d.name (Val.table [])) GlobalKey =
              some (Val.table G) := by
            rw [lookupV_setV, if_neg (Ne.symm hGpair.1)]
            exact hdestG
          have hcwg : coalesceGlobals [] (setV dest d.name (Val.table [])) =
              setV [] GlobalKey (Val.table (coalesceTables G [])) :=
            (coalesceGlobals_global [] _ G hsrcG).1 rfl
          have hcwgG : lookupV (coalesceGlobals [] (setV dest d.name (Val.table [])))
              GlobalKey = some (Val.table (coalesceTables G [])) := by
            rw [hcwg, lookupV_setV]
            simp
          have hcwgN : tblNodup (coalesceGlobals [] (setV dest d.name (Val.table []))) =
              true :=
            tblNodup_coalesceGlobals _ _ tblNodup_nil
              (tblNodup_setV _ _ _ hdest (by rw [valNodup_table]; exact tblNodup_nil))
          have hkeep : lookupV (coalesceTables G []) k = some v :=
            lookupV_coalesceTables_keep G [] k v hkeysG hGk hvn hvt
          obtain ⟨gd, hgd1, hgd2⟩ :=
            coalesce_keeps_global d _ cres (coalesceTables G []) k v hcwgN hcwgG hkeep
              hvn hvt hGd hco
          refine ⟨cres, gd, ?_, hgd1, hgd2⟩
          rw [coalesceDepsList_lookup_ne rest _ out d.name h hn1, lookupV_setV]
          simp
      · rcases c with _ | n2 | s2 | b2 | es2 | dvmap
        case table =>
          -- existing table slot for d
          replace h :
              (match coalesce d (coalesceGlobals dvmap dest) with
                | Except.error e => Except.error e
                | Except.ok cres =>
                  coalesceDepsList rest (setV dest d.name (Val.table cres))) =
                Except.ok out := h
          rcases hco : coalesce d (coalesceGlobals dvmap dest) with e | cres <;>
            rw [hco] at h
          · exact Except.noConfusion
              (show (Except.error e : Except String VTable) = Except.ok out from h)
          · have hdvN : tblNodup dvmap = true :=
              tblNodup_of_lookup_table dest dvmap d.name hdest hdn
            have hginner : lookupV dvmap GlobalKey = none ∨
                ∃ gt, lookupV dvmap GlobalKey = some (Val.table gt) := by
              rcases hslot with hnone | ⟨dvmap2, hdv2, hg2⟩
              · rw [hdn] at hnone
                simp at hnone
              · rw [hdn] at hdv2
                simp only [Option.some.injEq, Val.table.injEq] at hdv2
                rw [hdv2]
                exact hg2
            obtain ⟨gt0, hcwg, hgt0N⟩ :
                ∃ gt0, coalesceGlobals dvmap dest =
                    setV dvmap GlobalKey (Val.table (coalesceTables G gt0)) ∧
                  tblNodup gt0 = true := by
              rcases hginner with hgnone | ⟨gt, hgt⟩
              · exact ⟨[], (coalesceGlobals_global dvmap dest G hdestG).1 hgnone,
                  tblNodup_nil⟩
              · exact ⟨gt, (coalesceGlobals_global dvmap dest G hdestG).2 gt hgt,
                  tblNodup_of_lookup_table dvmap gt GlobalKey hdvN hgt⟩
            have hcwgG : lookupV (coalesceGlobals dvmap dest) GlobalKey =
                some (Val.table (coalesceTables G gt0)) := by
              rw [hcwg, lookupV_setV]
              simp
            have hcwgN : tblNodup (coalesceGlobals dvmap dest) = true :=
              tblNodup_coalesceGlobals _ _ hdvN hdest
            have hkeep : lookupV (coalesceTables G gt0) k = some v :=
              lookupV_coalesceTables_keep G gt0 k v hkeysG hGk hvn hvt
            obtain ⟨gd, hgd1, hgd2⟩ :=
              coalesce_keeps_global d _ cres (coalesceTables G gt0) k v hcwgN hcwgG hkeep
                hvn hvt hGd hco
            refine ⟨cres, gd, ?_, hgd1, hgd2⟩
            rw [coalesceDepsList_lookup_ne rest _ out d.name h hn1, lookupV_setV]
            simp
        all_goals simp at h
    · -- d is further down: transfer everything through the head step
      have hdne : d.name ≠ sub.name := by
        intro he
        exact hn1 (he ▸ List.mem_map_of_mem Chart.name hd)
      rw [coalesceDepsList] at h
      rcases hdn : lookupV dest sub.name with _ | c <;> rw [hdn] at h
      · replace h :
            (match coalesce sub (coalesceGlobals [] (setV dest sub.name (Val.table []))) with
              | Except.error e => Except.error e
              | Except.ok cres =>
                coalesceDepsList rest
                  (setV (setV dest sub.name (Val.table [])) sub.name (Val.table cres))) =
              Except.ok out := h
        rcases hco : coalesce sub (coalesceGlobals [] (setV dest sub.name (Val.table [])))
          with e | cres <;> rw [hco] at h
        · exact Except.noConfusion
            (show (Except.error e : Except String VTable) = Except.ok out from h)
        · have hd2 : tblNodup (setV dest sub.name (Val.table [])) = true :=
            tblNodup_setV _ _ _ hdest (by rw [valNodup_table]; exact tblNodup_nil)
          have hcwgN :
              tblNodup (coalesceGlobals [] (setV dest sub.name (Val.table []))) = true :=
            tblNodup_coalesceGlobals _ _ tblNodup_nil hd2
          have hcres : tblNodup cres = true :=
            (coalesce_preserves_nodup (sizeOf sub)).1 sub _ cres le_rfl hsub1 hcwgN hco
          have hdN :
              tblNodup (setV (setV dest sub.name (Val.table [])) sub.name
                (Val.table cres)) = true :=
            tblNodup_setV _ _ _ hd2 (by rw [valNodup_table]; exact hcres)
          have htrans : ∀ x, x ≠ sub.name →
              lookupV (setV (setV dest sub.name (Val.table [])) sub.name (Val.table cres)) x =
                lookupV dest x := by
            intro x hx
            rw [lookupV_setV, if_neg (Ne.symm hx), lookupV_setV, if_neg (Ne.symm hx)]
          refine ih _ out d G k v h hd hn2 hrest1 hdN hGpair.2 hGd ?_ hGk hvn hvt ?_
          · rw [htrans GlobalKey hGpair.1]
            exact hdestG
          · rw [htrans d.name hdne]
            exact hslot
      · rcases c with _ | n2 | s2 | b2 | es2 | dvmap
        case table =>
          replace h :
              (match coalesce sub (coalesceGlobals dvmap dest) with
                | Except.error e => Except.error e
                | Except.ok cres =>
                  coalesceDepsList rest (setV dest sub.name (Val.table cres))) =
                Except.ok out := h
          rcases hco : coalesce sub (coalesceGlobals dvmap dest) with e | cres <;>
            rw [hco] at h
          · exact Except.noConfusion
              (show (Except.error e : Except String VTable) = Except.ok out from h)
          · have hdvN : tblNodup dvmap = true :=
              tblNodup_of_lookup_table dest dvmap sub.name hdest hdn
            have hcwgN : tblNodup (coalesceGlobals dvmap dest) = true :=
              tblNodup_coalesceGlobals _ _ hdvN hdest
            have hcres : tblNodup cres = true :=
              (coalesce_preserves_nodup (sizeOf sub)).1 sub _ cres le_rfl hsub1 hcwgN hco
            have hdN : tblNodup (setV dest sub.name (Val.table cres)) = true :=
              tblNodup_setV _ _ _ hdest (by rw [valNodup_table]; exact hcres)
            have htrans : ∀ x, x ≠ sub.name →
                lookupV (setV dest sub.name (Val.table cres)) x = lookupV dest x := by
              intro x hx
              rw [lookupV_setV, if_neg (Ne.symm hx)]
            refine ih _ out d G k v h hd hn2 hrest1 hdN hGpair.2 hGd ?_ hGk hvn hvt ?_
            · rw [htrans GlobalKey hGpair.1]
              exact hdestG
            · rw [htrans d.name hdne]
              exact hslot
        all_goals simp at h

/-- Claim C2 (amended): for a chart and a direct dependency d whose
names avoid the key global and collide with nothing, under
well-formedness of the chart defaults and of the overrides, and
provided the slot for d after the root merge is absent or a table whose
global sub-entry is absent or a table, every non-null non-table entry
of the global table of the coalesced result also appears in the global
table stored under the dependency's name. Null entries, table-valued
entries (which are merged rather than copied), a non-table global slot
inside the dependency's overrides (which silently discards the globals)
and deeper dependencies named global all break the unconditional
claim. -/
theorem claim2_globals (ch d : Chart) (U R G : VTable) (k : String) (v : Val)
    (hch : chartNodup ch = true)
    (hU : tblNodup U = true)
    (hd : d ∈ ch.deps)
    (hnames : (ch.deps.map Chart.name).Nodup)
    (hG1 : GlobalKey ∉ ch.deps.map Chart.name)
    (hG2 : GlobalKey ∉ d.deps.map Chart.name)
    (hslot : ∀ dest2, coalesceValues ch U = Except.ok dest2 →
      lookupV dest2 d.name = none ∨
        ∃ dvmap, lookupV dest2 d.name = some (Val.table dvmap) ∧
          (lookupV dvmap GlobalKey = none ∨
            ∃ gt, lookupV dvmap GlobalKey = some (Val.table gt)))
    (hco : CoalesceValues ch (some (Except.ok U)) = Except.ok R)
    (hRG : lookupV R GlobalKey = some (Val.table G))
    (hGk : lookupV G k = some v)
    (hvn : v ≠ Val.vnull) (hvt : istable v = false) :
    ∃ cres gd, lookupV R d.name = some (Val.table cres) ∧
      lookupV cres GlobalKey = some (Val.table gd) ∧ lookupV gd k = some v := by
  rw [CoalesceValues] at hco
  replace hco : coalesce ch U = Except.ok R := hco
  rw [coalesce] at hco
  rcases hv : coalesceValues ch U with e | dest2 <;> rw [hv] at hco
  · exact Except.noConfusion
      (show (Except.error e : Except String VTable) = Except.ok R from hco)
  · have hdest2N : tblNodup dest2 = true := by
      rw [coalesceValues] at hv
      rcases hval : ch.values with _ | dec
      · rw [hval] at hv
        simp only [Except.ok.injEq] at hv
        rw [← hv]
        exact hU
      · rcases dec with e2 | D
        · rw [hval] at hv; simp at hv
        · rw [hval] at hv
          simp only [Except.ok.injEq] at hv
          rw [← hv, AsMap_eq]
          exact tblNodup_coalesceTables2 _ _ hU (chartNodup_values ch D hch hval)
    have hdest2G : lookupV dest2 GlobalKey = some (Val.table G) := by
      rw [← coalesceDepsList_lookup_ne ch.deps dest2 R GlobalKey hco hG1]
      exact hRG
    exact coalesceDepsList_global_reaches ch.deps dest2 R d G k v hco hd hnames
      (chartNodup_deps ch hch) hdest2N hG1 hG2 hdest2G hGk hvn hvt (hslot dest2 hv)

/-- Witness for claim C2: the global entry region=us of the overrides
reaches the dependency s of chartC2, ending up under both the global
key of the result and the global key of the slot of s. -/
theorem claim2_witness :
    ∃ cres gd, lookupV R2 chartDep2.name = some (Val.table cres) ∧
      lookupV cres GlobalKey = some (Val.table gd) ∧
      lookupV gd "region" = some (Val.str "us") :=
  claim2_globals chartC2 chartDep2 U2 R2 G2 "region" (Val.str "us")
    (by simp [chartNodup, chartListNodup, chartC2, chartDep2, Chart.values, Chart.deps])
    (by simp [U2, G2, tblNodup, valNodup, containsKey, lookupV])
    (by simp [chartC2, Chart.deps])
    (by decide)
    (by decide)
    (by decide)
    (by intro dest2 hdd
        simp only [coalesceValues, chartC2, Chart.values, Except.ok.injEq] at hdd
        rw [← hdd]
        left
        simp [U2, G2, lookupV, chartDep2, Chart.name])
    (by simp [CoalesceValues, coalesce, coalesceValues, coalesceDepsList, coalesceGlobals,
        coalesceTables, srcPass, copyAcross, setV, lookupV, chartC2, chartDep2, U2, R2, G2,
        GlobalKey, AsMap, Val.isNull, Chart.values, Chart.deps, Chart.name])
    (by simp [R2, G2, lookupV, GlobalKey])
    (by simp [G2, lookupV])
    (by simp)
    rfl

/-- Counterexample to claim C2 as stated: under overrides U2ex the slot
of dependency s binds global to the scalar 5, so coalesceGlobals bails
out and the coalesced slot of s is an empty table with NO global entry
at all, although the global table of the result maps region to us. -/
theorem claim2_counterexample :
    CoalesceValues chartC2 (some (Except.ok U2ex)) = Except.ok R2ex ∧
    lookupV R2ex GlobalKey = some (Val.table G2) ∧
    lookupV G2 "region" = some (Val.str "us") ∧
    lookupV R2ex "s" = some (Val.table []) ∧
    lookupV ([] : VTable) GlobalKey = none := by
  refine ⟨?_, ?_, ?_, ?_, ?_⟩
  · simp [CoalesceValues, coalesce, coalesceValues, coalesceDepsList, coalesceGlobals,
      coalesceTables, srcPass, copyAcross, setV, lookupV, chartC2, chartDep2, U2ex, R2ex,
      G2, GlobalKey, AsMap, Val.isNull, Chart.values, Chart.deps, Chart.name]
  · simp [R2ex, G2, lookupV, GlobalKey]
  · simp [G2, lookupV]
  · simp [R2ex, G2, lookupV, GlobalKey]
  · simp [lookupV]

end Helm
